import Mathlib

/-!
Verification development for the jts spec-structure migration tooling
(`scripts/utilities/migrate-spec-structure.py` and `scripts/fix-spec-ids.py`).

The Python source is shallowly embedded: documents are lists of lines, a
line is a list of characters (Python strings never contain a newline inside
one line, so the line decomposition is exact).  YAML metadata is modelled by
the block-mapping subset the corpus uses: top-level `key: scalar` pairs,
`key:` followed by indentless `- item` sequence entries (PyYAML's dump
style), `key: []`, and scalars that are plain strings, single/double-quoted
strings, decimal integers, the YAML 1.1 boolean words, and null.  The
comment-stripping heuristic, the frontmatter delimiter search, the hierarchy
map construction, the ancestor-chain walk, the reference rewriting, and the
write/delete orchestration are translated statement by statement from the
source.  `md5`-based unique-id generation is an opaque parameter `uid` of the
orchestration functions (only its output string ever matters).
-/

abbrev Line := List Char

abbrev Doc := List Line

/-- Shorthand: character list of a string literal. -/
def L (s : String) : List Char := s.data

def quoteChar : Char := Char.ofNat 39

def dquoteChar : Char := Char.ofNat 34

/-! ### Decimal printing (Python `str(n)` / `f"{n:02d}"`) -/

/-- Little-endian decimal digits of `n`; fuel-driven so it reduces by `rfl`. -/
def toDigitsRev : Nat → Nat → List Nat
  | 0, _ => []
  | fuel + 1, n => if n < 10 then [n] else n % 10 :: toDigitsRev fuel (n / 10)

def ofDigitsRev (ds : List Nat) : Nat := ds.foldr (fun d acc => d + 10 * acc) 0

/-- Python `str(n)` for a natural number. -/
def natRepr (n : Nat) : List Char :=
  ((toDigitsRev (n + 1) n).reverse.map Nat.digitChar)

/-- Python `str(i)` for an integer. -/
def intRepr (i : Int) : List Char :=
  if i < 0 then '-' :: natRepr i.natAbs else natRepr i.toNat

/-- Python `f"{n:02d}"`: decimal, zero-padded to at least two digits. -/
def fmt2 (n : Nat) : List Char :=
  if n < 10 then '0' :: natRepr n else natRepr n

/-! ### YAML values and metadata mappings -/

/-- Scalar YAML values occurring in spec frontmatter. -/
inductive YScalar where
  | str (s : List Char)
  | int (n : Int)
  | bool (b : Bool)
  | null
deriving DecidableEq

/-- A frontmatter field value: a scalar or a (flat) sequence of scalars. -/
inductive YValue where
  | scalar (s : YScalar)
  | list (xs : List YScalar)
deriving DecidableEq

/-- Ordered mapping of frontmatter fields, as produced by `yaml.safe_load`
(dictionary insertion order; duplicate keys collapse onto the first
position with the last value). -/
abbrev Metadata := List (Line × YValue)

/-- First-occurrence association lookup (the mapping has unique keys). -/
def lookupMeta (k : Line) : Metadata → Option YValue
  | [] => none
  | (k', v) :: rest => if k = k' then some v else lookupMeta k rest

/-- Python `d[k] = v`: replace the value in place if the key exists,
append otherwise. -/
def assocSetVal (k : Line) (v : YValue) : Metadata → Metadata
  | [] => [(k, v)]
  | (k', v') :: rest =>
    if k = k' then (k', v) :: rest else (k', v') :: assocSetVal k v rest

/-- Python `del d[k]` (no-op when absent, callers guard with `in`). -/
def removeKey (k : Line) : Metadata → Metadata
  | [] => []
  | (k', v') :: rest => if k = k' then rest else (k', v') :: removeKey k rest

def hasKey (k : Line) (m : Metadata) : Bool := (lookupMeta k m).isSome

/-- Python `repr` of a scalar (used inside `str` of a list). -/
def pyReprScalar : YScalar → List Char
  | .str s => quoteChar :: s ++ [quoteChar]
  | .int n => intRepr n
  | .bool b => if b then L "True" else L "False"
  | .null => L "None"

/-- Python `str(value)` for the value shapes `yaml.safe_load` can produce
here. -/
def pyStr : YValue → List Char
  | .scalar (.str s) => s
  | .scalar (.int n) => intRepr n
  | .scalar (.bool b) => if b then L "True" else L "False"
  | .scalar .null => L "None"
  | .list xs =>
    '[' :: (List.intercalate (L ", ") (xs.map pyReprScalar)) ++ [']']

/-- Python `str(x)` for a scalar (list elements in reference fields). -/
def pyStrScalar : YScalar → List Char
  | .str s => s
  | .int n => intRepr n
  | .bool b => if b then L "True" else L "False"
  | .null => L "None"

/-- Python truthiness of a loaded YAML value. -/
def pyTruthy : YValue → Bool
  | .scalar (.str s) => s ≠ []
  | .scalar (.int n) => n ≠ 0
  | .scalar (.bool b) => b
  | .scalar .null => false
  | .list xs => xs ≠ []

/-! ### Line utilities -/

/-- Python `rstrip()`. -/
def rstrip (l : Line) : Line := (l.reverse.dropWhile Char.isWhitespace).reverse

/-- Python `lstrip()`. -/
def lstrip (l : Line) : Line := l.dropWhile Char.isWhitespace

/-- Python `strip()`. -/
def pyTrim (l : Line) : Line := lstrip (rstrip l)

def isBlankL (l : Line) : Bool := pyTrim l = []

/-- Split at the first occurrence of character `c` (Python `split(c, 1)`). -/
def splitAtFirst (c : Char) : Line → Option (Line × Line)
  | [] => none
  | x :: rest =>
    if x = c then some ([], rest)
    else (splitAtFirst c rest).map (fun p => (x :: p.1, p.2))

/-- Python `str.replace(pat, rep)`: every non-overlapping occurrence,
scanned left to right (`pat` nonempty in all uses here).  The fuel equals
the remaining length, so the zero-fuel arm is never reached; structural
recursion keeps the function kernel-reducible. -/
def replaceSubAux (pat rep : Line) : Nat → Line → Line
  | 0, l => l
  | fuel + 1, l =>
    match l with
    | [] => []
    | c :: rest =>
      if pat ≠ [] ∧ pat.isPrefixOf (c :: rest) then
        rep ++ replaceSubAux pat rep fuel ((c :: rest).drop pat.length)
      else
        c :: replaceSubAux pat rep fuel rest

def replaceSub (pat rep : Line) (l : Line) : Line := replaceSubAux pat rep l.length l

/-! ### Frontmatter codec: decoding (`parse_yaml_frontmatter`) -/

/-- Contiguous-sublist test, scanning for a prefix match at each suffix. -/
def isInfixOfL (pat : Line) : Line → Bool
  | [] => pat.isPrefixOf []
  | c :: rest => pat.isPrefixOf (c :: rest) || isInfixOfL pat rest

/-- One step of the comment-stripping loop in `parse_yaml_frontmatter`:
full-line comments are dropped, a trailing comment is truncated at the
first `#` unless a quote character stands directly before some `#`. -/
def stripCommentLine (line : Line) : Option Line :=
  if (lstrip line).head? = some '#' then none
  else if line.contains '#' then
    if isInfixOfL [dquoteChar, '#'] line || isInfixOfL [quoteChar, '#'] line then
      some line
    else
      some (rstrip (line.takeWhile (· ≠ '#')))
  else some line

def stripComments (ls : List Line) : List Line := ls.filterMap stripCommentLine

/-- The fallback retry in the YAML-error handler: `'# '` replaced by `'@ '`,
then every remaining `#` removed. -/
def commentNeutralizeLine (l : Line) : Line :=
  (replaceSub (L "# ") (L "@ ") l).filter (fun c => c ≠ '#')

def boolTrueToks : List Line :=
  [L "true", L "True", L "TRUE", L "yes", L "Yes", L "YES", L "on", L "On", L "ON"]

def boolFalseToks : List Line :=
  [L "false", L "False", L "FALSE", L "no", L "No", L "NO", L "off", L "Off", L "OFF"]

def nullToks : List Line := [L "null", L "Null", L "NULL", L "~"]

/-- Decimal integer token (the corpus subset of YAML's int resolver). -/
def isIntTok (l : Line) : Bool :=
  match l with
  | '-' :: rest => rest ≠ [] && rest.all Char.isDigit
  | '+' :: rest => rest ≠ [] && rest.all Char.isDigit
  | _ => l ≠ [] && l.all Char.isDigit

def digitsToNat (l : Line) : Nat := l.foldl (fun a c => 10 * a + (c.toNat - 48)) 0

def parseIntTok (l : Line) : Int :=
  match l with
  | '-' :: rest => -(digitsToNat rest : Int)
  | '+' :: rest => (digitsToNat rest : Int)
  | _ => (digitsToNat l : Int)

/-- Resolve one (trimmed, nonempty) scalar token as `yaml.safe_load` does on
this subset. -/
def parseScalarTok (vt : Line) : YScalar :=
  if isIntTok vt then .int (parseIntTok vt)
  else if vt ∈ boolTrueToks then .bool true
  else if vt ∈ boolFalseToks then .bool false
  else if vt ∈ nullToks then .null
  else
    match vt with
    | c :: rest =>
      if c = quoteChar ∧ rest ≠ [] ∧ rest.getLast? = some quoteChar then
        .str (rest.dropLast)
      else if c = dquoteChar ∧ rest ≠ [] ∧ rest.getLast? = some dquoteChar then
        .str (rest.dropLast)
      else .str vt
    | [] => .str []

def parseValueTok (vt : Line) : YValue :=
  if vt = L "[]" then .list [] else .scalar (parseScalarTok vt)

/-- Collect the leading `- item` lines of an indentless block sequence.
Blank lines between items are allowed and consumed only when further items
follow (they otherwise stay with the remainder). -/
def takeListItems : List Line → List YScalar × List Line
  | [] => ([], [])
  | l :: rest =>
    if (L "- ").isPrefixOf l then
      (parseScalarTok (pyTrim (l.drop 2)) :: (takeListItems rest).1, (takeListItems rest).2)
    else if isBlankL l then
      if (takeListItems rest).1 = [] then ([], l :: rest)
      else takeListItems rest
    else ([], l :: rest)

/-- Parse the cleaned frontmatter lines as a block mapping, accumulating
fields left to right exactly as the YAML constructor inserts them into the
dictionary (the `yaml.safe_load` subset this corpus exercises; `none`
models a YAML error). -/
def parseYamlAux (acc : Metadata) : Nat → List Line → Option Metadata
  | _, [] => some acc
  | 0, _ => none
  | fuel + 1, l :: rest =>
    if isBlankL l then parseYamlAux acc fuel rest
    else if l = ['\x7b', '\x7d'] then
      if acc = [] then
        if rest.all (fun r => isBlankL r) then some [] else none
      else none
    else
      match splitAtFirst ':' l with
      | none => none
      | some (k, v) =>
        let vt := pyTrim v
        if vt = [] then
          if (takeListItems rest).1 = [] then
            parseYamlAux (assocSetVal k (.scalar .null) acc) fuel rest
          else
            parseYamlAux (assocSetVal k (.list (takeListItems rest).1) acc)
              fuel (takeListItems rest).2
        else
          parseYamlAux (assocSetVal k (parseValueTok vt) acc) fuel rest

def parseYaml (ls : List Line) : Option Metadata := parseYamlAux [] ls.length ls

/-- Index of the first line equal to `---` that is not the final line of the
content (the regex `\n---\n` needs a newline after the dashes, and the last
line of the joined content has none). -/
def findDelimIdx : List Line → Option Nat
  | [] => none
  | [_] => none
  | l :: rest =>
    if l = L "---" then some 0 else (findDelimIdx rest).map (· + 1)

/-- `SpecMigrator.parse_yaml_frontmatter` over the line representation.
Content that does not open with `---`, or has no closing delimiter, comes
back untouched with empty metadata.  On a parse error the comment-neutralized
retry runs; if that fails too the original content comes back. -/
def parseYamlFrontmatter (ls : Doc) : Metadata × Doc :=
  match ls with
  | [] => ([], [])
  | first :: rest =>
    if (L "---").isPrefixOf first then
      match findDelimIdx rest with
      | some i =>
        let yamlLines := first.drop 3 :: rest.take i
        let bodyLines := rest.drop (i + 1)
        match parseYaml (stripComments yamlLines) with
        | some md => (md, bodyLines)
        | none =>
          match parseYaml (yamlLines.map commentNeutralizeLine) with
          | some md => (md, bodyLines)
          | none => ([], first :: rest)
      | none => ([], first :: rest)
    else ([], first :: rest)

/-- `parse_yaml_frontmatter` in `fix-spec-ids.py`: identical except the
error handler returns the original content directly (no retry). -/
def parseYamlFrontmatterFix (ls : Doc) : Metadata × Doc :=
  match ls with
  | [] => ([], [])
  | first :: rest =>
    if (L "---").isPrefixOf first then
      match findDelimIdx rest with
      | some i =>
        let yamlLines := first.drop 3 :: rest.take i
        let bodyLines := rest.drop (i + 1)
        match parseYaml (stripComments yamlLines) with
        | some md => (md, bodyLines)
        | none => ([], first :: rest)
      | none => ([], first :: rest)
    else ([], first :: rest)

/-! ### Frontmatter codec: encoding (`yaml.dump` plus the banner-comment
formatting in `update_spec_content`) -/

/-- PyYAML emits a plain (unquoted) scalar for the string shapes this corpus
uses: nonempty, no leading/trailing whitespace, no YAML indicator at the
start, no `: ` or ` #` sequence inside, and not resolvable as another type.
The character classes below are the ones exercised by spec documents. -/
def emitPlain (s : Line) : Bool :=
  match s with
  | [] => false
  | c :: _ =>
    c.isAlpha &&
    s.all (fun ch => ch.isAlphanum || ch = '_' || ch = '-' || ch = '.' || ch = '#' || ch = '/') &&
    !(s ∈ boolTrueToks) && !(s ∈ boolFalseToks) && !(s ∈ nullToks)

/-- `yaml.dump` rendering of one scalar. -/
def dumpScalar : YScalar → Line
  | .str s => if emitPlain s then s else quoteChar :: s ++ [quoteChar]
  | .int n => intRepr n
  | .bool b => if b then L "true" else L "false"
  | .null => L "null"

/-- `yaml.dump(..., default_flow_style=False, sort_keys=False)` lines for one
field (indentless block sequences, PyYAML's default). -/
def dumpFieldLines (k : Line) (v : YValue) : List Line :=
  match v with
  | .scalar s => [k ++ L ": " ++ dumpScalar s]
  | .list [] => [k ++ L ": []"]
  | .list xs => (k ++ [':']) :: xs.map (fun x => L "- " ++ dumpScalar x)

/-- `yaml.dump` of the whole mapping (an empty mapping renders as `{}`). -/
def yamlDump (m : Metadata) : List Line :=
  match m with
  | [] => [['\x7b', '\x7d']]
  | _ => m.flatMap (fun p => dumpFieldLines p.1 p.2)

def bannerLine : Line :=
  '#' :: ' ' :: List.replicate 76 '='

def metaBannerLine : Line :=
  L "# SPEC METADATA - This entire frontmatter section contains the spec metadata"

def idCommentSuffix : Line := L " # Unique identifier (never changes)"

def sectionHeaderFor (name : Line) : List Line :=
  [[], L "# === " ++ name ++ L " ==="]

/-- The section-banner insertion loop of `update_spec_content` (lines
319-360 of the source): walks the dumped YAML lines with the current
section, appending an inline comment to `id:` lines and a blank line plus a
banner ahead of the first line of each recognized group. -/
def addBannersAux (sec : Line) : List Line → List Line
  | [] => []
  | l :: rest =>
    if (L "id:").isPrefixOf l then
      (l ++ idCommentSuffix) :: addBannersAux sec rest
    else if (L "parent:").isPrefixOf l then
      (if sec = L "hierarchy" then [] else sectionHeaderFor (L "HIERARCHY")) ++
        l :: addBannersAux (L "hierarchy") rest
    else if (L "status:").isPrefixOf l then
      (if sec = L "workflow" then [] else sectionHeaderFor (L "WORKFLOW")) ++
        l :: addBannersAux (L "workflow") rest
    else if (L "created:").isPrefixOf l then
      (if sec = L "tracking" then [] else sectionHeaderFor (L "TRACKING")) ++
        l :: addBannersAux (L "tracking") rest
    else if (L "dependencies:").isPrefixOf l then
      (if sec = L "dependencies" then [] else sectionHeaderFor (L "DEPENDENCIES")) ++
        l :: addBannersAux (L "dependencies") rest
    else if (L "pull_requests:").isPrefixOf l then
      (if sec = L "implementation" then [] else sectionHeaderFor (L "IMPLEMENTATION")) ++
        l :: addBannersAux (L "implementation") rest
    else if (L "tags:").isPrefixOf l then
      (if sec = L "metadata" then [] else sectionHeaderFor (L "METADATA")) ++
        l :: addBannersAux (L "metadata") rest
    else
      l :: addBannersAux sec rest

/-- Serialize a metadata mapping back to frontmatter plus body (the
rebuild step of `update_spec_content`): delimiters, header banners, dumped
fields with section banners, then the body.  The empty body corresponds to
the single empty line `[[]]` (the content string ends with a newline). -/
def encodeFrontmatter (md : Metadata) (body : Doc) : Doc :=
  L "---" ::
    bannerLine :: metaBannerLine :: bannerLine :: [] ::
    (L "# === IDENTIFICATION ===") ::
    addBannersAux (L "identification") (yamlDump md ++ [[]]) ++
    [L "---"] ++ body

/-! ### Corpus loader (`load_all_specs`) -/

/-- One loaded spec's record (`self.specs_data[old_id]`). -/
structure SpecInfo where
  metadata : Metadata
  body : Doc
  file_path : Line
  type : YValue
deriving DecidableEq

abbrev SpecsData := List (Line × SpecInfo)

def lookupInfo (k : Line) : SpecsData → Option SpecInfo
  | [] => none
  | (k', v) :: rest => if k = k' then some v else lookupInfo k rest

def hasId (k : Line) (sd : SpecsData) : Bool := (lookupInfo k sd).isSome

/-- Python `specs_data[old_id] = {...}`: replace in place or append. -/
def setInfo (k : Line) (v : SpecInfo) : SpecsData → SpecsData
  | [] => [(k, v)]
  | (k', v') :: rest =>
    if k = k' then (k', v) :: rest else (k', v') :: setInfo k v rest

/-- Final path component of a POSIX path string. -/
def fileNameOf (p : Line) : Line := (p.reverse.takeWhile (· ≠ '/')).reverse

/-- The glob/exclusion filter of `load_all_specs`: recursive `*.md` under
`specs`, minus deliverable/workflow paths and context/README file names. -/
def isCandidateSpecFile (p : Line) : Bool :=
  (L "specs/").isPrefixOf p &&
  (L ".md").isPrefixOf ((p.reverse.take 3).reverse) &&
  !(isInfixOfL (L "deliverables") p) &&
  !(isInfixOfL (L "workflow") p) &&
  !(isInfixOfL (L "context") (fileNameOf p)) &&
  !(isInfixOfL (L "README") (fileNameOf p))

/-- The table entry one file contributes in `load_all_specs`: `none` when
the file is filtered out, has no parseable metadata, or has no `id` field;
otherwise the key `str(metadata['id'])` with the stored record. -/
def loadRecord (file : Line × Doc) : Option (Line × SpecInfo) :=
  if isCandidateSpecFile file.1 then
    let parsed := parseYamlFrontmatter file.2
    let md := parsed.1
    if md ≠ [] ∧ hasKey (L "id") md then
      let oldId := pyStr ((lookupMeta (L "id") md).getD (.scalar .null))
      let specType := (lookupMeta (L "type") md).getD (.scalar (.str (L "task")))
      some (oldId,
        { metadata := md, body := parsed.2, file_path := file.1, type := specType })
    else none
  else none

def loadStep (sd : SpecsData) (file : Line × Doc) : SpecsData :=
  match loadRecord file with
  | some (k, info) => setInfo k info sd
  | none => sd

/-- `SpecMigrator.load_all_specs` over an explicit file listing
`(path, content)`.  Files without parseable metadata or without an `id`
field are skipped with a warning. -/
def loadAllSpecs (files : List (Line × Doc)) : SpecsData :=
  files.foldl loadStep []

/-! ### Hierarchy resolver (`build_hierarchy_map`) -/

/-- `str(metadata.get('parent', '')) if metadata.get('parent') else ''`. -/
def parentKeyOf (md : Metadata) : Line :=
  match lookupMeta (L "parent") md with
  | some v => if pyTruthy v then pyStr v else []
  | none => []

/-- Append `x` to the list bucketed under `k` (Python
`dict.setdefault`-style grouping, first-seen key order). -/
def bucketAdd (k x : Line) : List (Line × List Line) → List (Line × List Line)
  | [] => [(k, [x])]
  | (k', xs) :: rest =>
    if k = k' then (k', xs ++ [x]) :: rest else (k', xs) :: bucketAdd k x rest

def bucketGet (k : Line) (b : List (Line × List Line)) : List Line :=
  match b with
  | [] => []
  | (k', xs) :: rest => if k = k' then xs else bucketGet k rest

/-- Grouping pass of `build_hierarchy_map`: epics in table order, and
features/tasks/subtasks bucketed by coerced parent key. -/
def groupSpecs (sd : SpecsData) :
    List Line × List (Line × List Line) × List (Line × List Line) × List (Line × List Line) :=
  sd.foldl
    (fun acc entry =>
      let (epics, fbp, tbp, sbp) := acc
      let oldId := entry.1
      let info := entry.2
      let parent := parentKeyOf info.metadata
      if info.type = .scalar (.str (L "epic")) then
        (epics ++ [oldId], fbp, tbp, sbp)
      else if info.type = .scalar (.str (L "feature")) then
        (epics, bucketAdd parent oldId fbp, tbp, sbp)
      else if info.type = .scalar (.str (L "task")) then
        (epics, fbp, bucketAdd parent oldId tbp, sbp)
      else if info.type = .scalar (.str (L "subtask")) then
        (epics, fbp, tbp, bucketAdd parent oldId sbp)
      else (epics, fbp, tbp, sbp))
    ([], [], [], [])

/-- Python `x.isdigit()` (ASCII corpus). -/
def pyIsDigit (s : Line) : Bool := s ≠ [] && s.all Char.isDigit

/-- The sort key `int(x) if x.isdigit() else 0`. -/
def sortKey (s : Line) : Nat := if pyIsDigit s then digitsToNat s else 0

/-- Python `sorted(ids, key=sortKey)`: a stable sort by the key.  Insertion
sort placing each element before the first strictly-later element with a
key not below it is extensionally the same stable result. -/
def sortByKey (ids : List Line) : List Line :=
  List.insertionSort (fun a b => sortKey a ≤ sortKey b) ids

def TYPE_PREFIXES : List (Line × Char) :=
  [(L "epic", 'E'), (L "feature", 'F'), (L "task", 'T'),
   (L "subtask", 'S'), (L "bug", 'B'), (L "spike", 'K')]

/-- `TYPE_PREFIXES.get(spec_type, 'T')`; only a string key can match the
string-keyed table. -/
def typeLetterOf (v : YValue) : Char :=
  match v with
  | .scalar (.str s) =>
    match TYPE_PREFIXES.lookup s with
    | some c => c
    | none => 'T'
  | _ => 'T'

/-- Sequential two-digit numbering of one sorted scope (`counter` starts at
1 in the source loops; `enum` index `i` carries counter `i + 1`). -/
def assignSeq (letter : Char) (ids : List Line) : List (Line × Line) :=
  ids.enum.map (fun p => (p.2, letter :: fmt2 (p.1 + 1)))

def lookupNewId (k : Line) : List (Line × Line) → Option Line
  | [] => none
  | (k', v) :: rest => if k = k' then some v else lookupNewId k rest

/-- The nested scoped-numbering loops of `SpecMigrator.build_hierarchy_map`
over epic → feature → task → subtask. -/
def assignedPairs (sd : SpecsData) : List (Line × Line) :=
  let grouped := groupSpecs sd
  let epics := grouped.1
  let fbp := grouped.2.1
  let tbp := grouped.2.2.1
  let sbp := grouped.2.2.2
  (assignSeq 'E' (sortByKey epics)).flatMap (fun ep =>
    ep :: (assignSeq 'F' (sortByKey (bucketGet ep.1 fbp))).flatMap (fun fp =>
      fp :: (assignSeq 'T' (sortByKey (bucketGet fp.1 tbp))).flatMap (fun tp =>
        tp :: assignSeq 'S' (sortByKey (bucketGet tp.1 sbp)))))

/-- The `{prefix}99_{old_id}` fallback pairs for still-unmapped nodes. -/
def orphanPairs (sd : SpecsData) : List (Line × Line) :=
  sd.filterMap (fun entry =>
    if lookupNewId entry.1 (assignedPairs sd) = none then
      some (entry.1, typeLetterOf entry.2.type :: L "99_" ++ entry.1)
    else none)

def buildHierarchyMap (sd : SpecsData) : List (Line × Line) :=
  assignedPairs sd ++ orphanPairs sd

/-! ### New-path computation (`get_new_path`) -/

def metadataOf (sd : SpecsData) (oldId : Line) : Metadata :=
  ((lookupInfo oldId sd).map SpecInfo.metadata).getD []

/-- The `while current_id:` ancestor walk of `get_new_path`, with explicit
fuel standing for the loop's (unbounded) iterations: `none` means the fuel
ran out, i.e. the Python loop is still running after that many passes.  The
raw `parent` value is compared against the string-keyed table, so only a
string parent can continue the walk. -/
def walkHierarchy (sd : SpecsData) (sm : List (Line × Line)) :
    Nat → Line → List Line → Option (List Line)
  | 0, _, _ => none
  | fuel + 1, cur, acc =>
    if cur = [] then some acc
    else
      let acc' := (lookupNewId cur sm).getD [] :: acc
      match lookupMeta (L "parent") (metadataOf sd cur) with
      | some (.scalar (.str p)) =>
        if p ≠ [] ∧ hasId p sd then walkHierarchy sd sm fuel p acc'
        else some acc'
      | _ => some acc'

/-- `get_new_path` (ancestor chain joined under `specs`); the fuel
`sd.length + 1` is enough for any cycle-free table. -/
def newPathParts (sd : SpecsData) (sm : List (Line × Line)) (oldId : Line) : List Line :=
  L "specs" :: (walkHierarchy sd sm (sd.length + 1) oldId []).getD []

def pathJoin (parts : List Line) : Line := List.intercalate ['/'] parts

def specPathOf (sd : SpecsData) (sm : List (Line × Line)) (oldId : Line) : Line :=
  pathJoin (newPathParts sd sm oldId) ++ L "/spec.md"

/-! ### Reference rewriter (`update_spec_content`) -/

def isWordChar (c : Char) : Bool := c.isAlphanum || c = '_'

/-- `re.sub(rf'\b{old}\b(?!\.md)', new, line)` for a word-character token
`old`: replace each occurrence standing at word boundaries and not followed
by `.md`, scanning left to right.  `prev` is the character before the
current position (`none` at the start of the line). -/
def rewriteTokenAux (old new : Line) : Nat → Option Char → Line → Line
  | 0, _, l => l
  | _ + 1, _, [] => []
  | fuel + 1, prev, c :: rest =>
    let boundaryBefore := match prev with
      | none => true
      | some p => !isWordChar p
    let tail := (c :: rest).drop old.length
    let boundaryAfter := match tail.head? with
      | none => true
      | some nc => !isWordChar nc
    let mdAfter := (L ".md").isPrefixOf tail
    if old ≠ [] && old.isPrefixOf (c :: rest) && boundaryBefore && boundaryAfter && !mdAfter then
      new ++ rewriteTokenAux old new fuel (old.getLast?) tail
    else
      c :: rewriteTokenAux old new fuel (some c) rest

/-- Body rewrite for one mapping pair (source lines 300-304): the
word-boundary substitution, then `'{old}.md' → '{new}/spec.md'`. -/
def rewriteLinePair (old new : Line) (l : Line) : Line :=
  replaceSub (old ++ L ".md") (new ++ L "/spec.md") (rewriteTokenAux old new l.length none l)

/-- All mapping pairs applied in order to one line. -/
def rewriteLineAll (sm : List (Line × Line)) (l : Line) : Line :=
  sm.foldl (fun acc p => rewriteLinePair p.1 p.2 acc) l

def rewriteBody (sm : List (Line × Line)) (body : Doc) : Doc :=
  body.map (rewriteLineAll sm)

/-- Context-file rewrite (source line 389): plain `\b{old}\b`, with no
`.md` lookahead and no `.md` path rule. -/
def rewriteTokenPlain (old new : Line) : Nat → Option Char → Line → Line
  | 0, _, l => l
  | _ + 1, _, [] => []
  | fuel + 1, prev, c :: rest =>
    let boundaryBefore := match prev with
      | none => true
      | some p => !isWordChar p
    let tail := (c :: rest).drop old.length
    let boundaryAfter := match tail.head? with
      | none => true
      | some nc => !isWordChar nc
    if old ≠ [] && old.isPrefixOf (c :: rest) && boundaryBefore && boundaryAfter then
      new ++ rewriteTokenPlain old new fuel (old.getLast?) tail
    else
      c :: rewriteTokenPlain old new fuel (some c) rest

def rewriteLineCtx (sm : List (Line × Line)) (l : Line) : Line :=
  sm.foldl (fun acc p => rewriteTokenPlain p.1 p.2 acc.length none acc) l

/-- Dictionary membership test used on `self.spec_map`: only a string value
can match the string-keyed dictionary (`old_parent in self.spec_map`). -/
def valueInMap (v : YValue) (sm : List (Line × Line)) : Bool :=
  match v with
  | .scalar (.str s) => (lookupNewId s sm).isSome
  | _ => false

/-- Source lines 264-267: drop any `unique_id` field and set `id` to the
node's unique token. -/
def promoteId (uid : Line → Line) (oldId : Line) (md : Metadata) : Metadata :=
  assocSetVal (L "id") (.scalar (.str (uid oldId))) (removeKey (L "unique_id") md)

/-- Source lines 269-273: the raw `parent` value is looked up against the
string-keyed map and replaced only on a hit. -/
def rewriteParentField (sm : List (Line × Line)) (md : Metadata) : Metadata :=
  match lookupMeta (L "parent") md with
  | some v =>
    if pyTruthy v then
      match v with
      | .scalar (.str s) =>
        match lookupNewId s sm with
        | some nid => assocSetVal (L "parent") (.scalar (.str nid)) md
        | none => md
      | _ => md
    else md
  | none => md

/-- Source lines 276-281: children are coerced to strings, filtered through
the map, and unmapped entries dropped. -/
def rewriteChildrenField (sm : List (Line × Line)) (md : Metadata) : Metadata :=
  match lookupMeta (L "children") md with
  | some v =>
    if pyTruthy v then
      match v with
      | .list xs =>
        assocSetVal (L "children")
          (.list ((xs.filterMap (fun x => lookupNewId (pyStrScalar x) sm)).map .str)) md
      | _ => md
    else md
  | none => md

/-- Source lines 283-287: unlike `parent`, the `epic` value is coerced with
`str(...)` before the lookup. -/
def rewriteEpicField (sm : List (Line × Line)) (md : Metadata) : Metadata :=
  match lookupMeta (L "epic") md with
  | some v =>
    if pyTruthy v then
      match lookupNewId (pyStr v) sm with
      | some nid => assocSetVal (L "epic") (.scalar (.str nid)) md
      | none => md
    else md
  | none => md

/-- Source lines 289-297, one pass of the loop body for a reference list
field (`dependencies`, `blocks`, `related`). -/
def rewriteRefListField (sm : List (Line × Line)) (field : Line) (md : Metadata) : Metadata :=
  match lookupMeta field md with
  | some v =>
    if pyTruthy v then
      match v with
      | .list xs =>
        assocSetVal field
          (.list ((xs.filterMap (fun x => lookupNewId (pyStrScalar x) sm)).map .str)) md
      | _ => md
    else md
  | none => md

/-- The metadata-rewriting half of `update_spec_content` (source lines
261-297). -/
def rewriteMetadata (sm : List (Line × Line)) (uid : Line → Line) (oldId : Line)
    (md : Metadata) : Metadata :=
  rewriteRefListField sm (L "related")
    (rewriteRefListField sm (L "blocks")
      (rewriteRefListField sm (L "dependencies")
        (rewriteEpicField sm
          (rewriteChildrenField sm
            (rewriteParentField sm (promoteId uid oldId md))))))

/-- `SpecMigrator.update_spec_content`: rewritten metadata re-encoded with
banners, body with every mapping pair substituted. -/
def updateSpecContent (sd : SpecsData) (sm : List (Line × Line)) (uid : Line → Line)
    (oldId : Line) : Doc :=
  let info := (lookupInfo oldId sd).getD { metadata := [], body := [], file_path := [], type := .scalar .null }
  encodeFrontmatter (rewriteMetadata sm uid oldId info.metadata) (rewriteBody sm info.body)

/-! ### Migration orchestrator (`perform_migration`, `run`) -/

/-- A filesystem mutation on the document corpus. -/
inductive FsOp where
  | write (p : Line) (c : Doc)
  | delete (p : Line)
deriving DecidableEq

def FsOp.isDelete : FsOp → Bool
  | .delete _ => true
  | _ => false

def FsOp.target : FsOp → Line
  | .write p _ => p
  | .delete p => p

/-- The per-node write loop of `perform_migration`.  `failAt = some i`
injects a write failure (an exception) at the `i`-th node: the loop stops
there, keeping the operations already performed, and the `Bool` records
that the run halted. -/
def migrateWriteLoop (sd : SpecsData) (sm : List (Line × Line)) (uid : Line → Line)
    (failAt : Option Nat) : List (Line × SpecInfo) → Nat → List FsOp × Bool
  | [], _ => ([], false)
  | entry :: rest, i =>
    if failAt = some i then ([], true)
    else
      let op := FsOp.write (specPathOf sd sm entry.1) (updateSpecContent sd sm uid entry.1)
      let r := migrateWriteLoop sd sm uid failAt rest (i + 1)
      (op :: r.1, r.2)

def endsWithL (suf l : Line) : Bool := suf.isSuffixOf l

def isContextFilePath (p : Line) : Bool :=
  (L "specs/").isPrefixOf p && endsWithL (L ".context.md") p

/-- `re.match(r'(\d+)\.context\.md', name)`: maximal leading digit run
immediately followed by the literal `.context.md`. -/
def contextIdOf (name : Line) : Option Line :=
  let ds := name.takeWhile Char.isDigit
  if ds ≠ [] ∧ (L ".context.md").isPrefixOf (name.drop ds.length) then some ds else none

/-- `SpecMigrator.migrate_context_files` over the file listing. -/
def contextOps (files : List (Line × Doc)) (sd : SpecsData)
    (sm : List (Line × Line)) : List FsOp :=
  files.foldl
    (fun ops f =>
      if isContextFilePath f.1 then
        match contextIdOf (fileNameOf f.1) with
        | some oldId =>
          if (lookupNewId oldId sm).isSome then
            ops ++ [FsOp.write (pathJoin (newPathParts sd sm oldId) ++ L "/context.md")
              (f.2.map (rewriteLineCtx sm))]
          else ops
        | none => ops
      else ops)
    []

/-- The cleanup phase: every loaded node's original file is unlinked. -/
def deleteOps (sd : SpecsData) : List FsOp :=
  sd.map (fun e => FsOp.delete e.2.file_path)

/-- `SpecMigrator.perform_migration`: all spec writes, then context-file
writes, then original-file deletions; an injected write failure aborts the
run before the context and deletion phases. -/
def performMigrationOps (files : List (Line × Doc)) (sd : SpecsData)
    (sm : List (Line × Line)) (uid : Line → Line) (failAt : Option Nat) :
    List FsOp × Bool :=
  let r := migrateWriteLoop sd sm uid failAt sd 0
  if r.2 then (r.1, true)
  else (r.1 ++ contextOps files sd sm ++ deleteOps sd, false)

/-- `SpecMigrator.run` restricted to its corpus mutations: backup, log and
rollback-script emission touch only paths outside the `specs` tree and are
not corpus operations.  There is no already-migrated check anywhere on this
path: load, build, migrate run unconditionally. -/
def runOps (files : List (Line × Doc)) (uid : Line → Line) (failAt : Option Nat) :
    List FsOp × Bool :=
  let sd := loadAllSpecs files
  let sm := buildHierarchyMap sd
  performMigrationOps files sd sm uid failAt

def setFile (p : Line) (c : Doc) : List (Line × Doc) → List (Line × Doc)
  | [] => [(p, c)]
  | (p', c') :: rest =>
    if p = p' then (p', c) :: rest else (p', c') :: setFile p c rest

/-- Apply a list of corpus operations to a file listing. -/
def applyFs (files : List (Line × Doc)) : List FsOp → List (Line × Doc)
  | [] => files
  | FsOp.write p c :: rest => applyFs (setFile p c files) rest
  | FsOp.delete p :: rest => applyFs (files.filter (fun f => f.1 ≠ p)) rest

/-! ### `fix-spec-ids.py` -/

/-- `re.match(r'^[a-f0-9]{8}$', s)`: exactly eight lowercase-hex
characters. -/
def isUuid8 (s : Line) : Bool :=
  s.length = 8 && s.all (fun c => c.isDigit || ('a' ≤ c && c ≤ 'f'))

def isFixCandidatePath (p : Line) : Bool :=
  (L "specs/").isPrefixOf p && endsWithL (L "/spec.md") p

/-- The banner formatting of `fix-spec-ids.py` (`format_yaml_with_comments`):
like the migrator's but with no `pull_requests` branch and the dumped YAML
stripped of its trailing newline. -/
def addBannersFixAux (sec : Line) : List Line → List Line
  | [] => []
  | l :: rest =>
    if (L "id:").isPrefixOf l then
      (l ++ idCommentSuffix) :: addBannersFixAux sec rest
    else if (L "parent:").isPrefixOf l then
      (if sec = L "hierarchy" then [] else sectionHeaderFor (L "HIERARCHY")) ++
        l :: addBannersFixAux (L "hierarchy") rest
    else if (L "status:").isPrefixOf l then
      (if sec = L "workflow" then [] else sectionHeaderFor (L "WORKFLOW")) ++
        l :: addBannersFixAux (L "workflow") rest
    else if (L "created:").isPrefixOf l then
      (if sec = L "tracking" then [] else sectionHeaderFor (L "TRACKING")) ++
        l :: addBannersFixAux (L "tracking") rest
    else if (L "dependencies:").isPrefixOf l then
      (if sec = L "dependencies" then [] else sectionHeaderFor (L "DEPENDENCIES")) ++
        l :: addBannersFixAux (L "dependencies") rest
    else if (L "tags:").isPrefixOf l then
      (if sec = L "metadata" then [] else sectionHeaderFor (L "METADATA")) ++
        l :: addBannersFixAux (L "metadata") rest
    else
      l :: addBannersFixAux sec rest

def formatYamlWithComments (md : Metadata) : List Line :=
  L "---" ::
    bannerLine :: metaBannerLine :: bannerLine :: [] ::
    (L "# === IDENTIFICATION ===") ::
    addBannersFixAux (L "identification") (yamlDump md) ++ [L "---"]

/-- `fix_spec_ids` as its list of file writes (`freshId` stands for
`str(uuid.uuid4())[:8]`).  Files whose `id` already matches the eight-hex
pattern are skipped; otherwise `unique_id` (when present) or a fresh token
is promoted into `id` and the file is rewritten in place. -/
def fixSpecIdsOps (files : List (Line × Doc)) (freshId : Line) : List FsOp :=
  files.foldl
    (fun ops f =>
      if isFixCandidatePath f.1 then
        let parsed := parseYamlFrontmatterFix f.2
        let md := parsed.1
        if md = [] ∨ ¬ hasKey (L "id") md then ops
        else
          let currentId := pyStr ((lookupMeta (L "id") md).getD (.scalar .null))
          if isUuid8 currentId then ops
          else
            let newIdVal :=
              match lookupMeta (L "unique_id") md with
              | some v => v
              | none => .scalar (.str freshId)
            let md' := assocSetVal (L "id") newIdVal (removeKey (L "unique_id") md)
            ops ++ [FsOp.write f.1 (formatYamlWithComments md' ++ [[]] ++ parsed.2)]
      else ops)
    []

/-! ### Demonstration corpora (concrete inputs for the claims) -/

/-- A deterministic stand-in for the md5-derived unique id. -/
def uidConst : Line → Line := fun _ => L "cafebabe"

def mkSpecEntry (idv : YValue) (ty : String) (par : Option YValue) (path : String) :
    Line × SpecInfo :=
  (pyStr idv,
   { metadata := [(L "id", idv), (L "type", .scalar (.str (L ty)))] ++
       (match par with | some p => [(L "parent", p)] | none => []),
     body := [], file_path := L path, type := .scalar (.str (L ty)) })

/-- Two epics, each with one feature child: the first feature of each epic
scope receives the same new id. -/
def sdTwoEpicsTwoFeatures : SpecsData :=
  [mkSpecEntry (.scalar (.int 1)) "epic" none "specs/1.md",
   mkSpecEntry (.scalar (.int 2)) "epic" none "specs/2.md",
   mkSpecEntry (.scalar (.int 10)) "feature" (some (.scalar (.str (L "1")))) "specs/1/10.md",
   mkSpecEntry (.scalar (.int 20)) "feature" (some (.scalar (.str (L "2")))) "specs/2/20.md"]

/-- Two epics with non-numeric old ids loaded in the order `"b"`, `"a"`. -/
def sdEpicsNonNumeric : SpecsData :=
  [mkSpecEntry (.scalar (.str (L "b"))) "epic" none "specs/b.md",
   mkSpecEntry (.scalar (.str (L "a"))) "epic" none "specs/a.md"]

/-- The spec scenario: epics `"3"` and `"1"` (loaded in that order), each
with one feature child. -/
def sdScenario31 : SpecsData :=
  [mkSpecEntry (.scalar (.int 3)) "epic" none "specs/3.md",
   mkSpecEntry (.scalar (.int 1)) "epic" none "specs/1.md",
   mkSpecEntry (.scalar (.int 31)) "feature" (some (.scalar (.str (L "3")))) "specs/3/31.md",
   mkSpecEntry (.scalar (.int 11)) "feature" (some (.scalar (.str (L "1")))) "specs/1/11.md"]

/-- An epic `1000` and a feature whose `parent` frontmatter value is the
YAML integer `1000` rather than the string `"1000"`. -/
def sdIntParent : SpecsData :=
  [mkSpecEntry (.scalar (.int 1000)) "epic" none "specs/1000.md",
   mkSpecEntry (.scalar (.int 1001)) "feature" (some (.scalar (.int 1000)))
     "specs/1000/1001.md"]

/-- Two nodes that are each other's parent: a parent-link cycle. -/
def sdCycle : SpecsData :=
  [mkSpecEntry (.scalar (.int 1)) "feature" (some (.scalar (.str (L "2")))) "specs/1.md",
   mkSpecEntry (.scalar (.int 2)) "feature" (some (.scalar (.str (L "1")))) "specs/2.md"]

/-- A feature whose declared parent `"99"` is not loaded. -/
def sdOrphanParent : SpecsData :=
  [mkSpecEntry (.scalar (.int 42)) "feature" (some (.scalar (.str (L "99")))) "specs/42.md"]

/-- A single-epic corpus in the original flat layout. -/
def corpusOne : List (Line × Doc) :=
  [(L "specs/1000.md", [L "---", L "id: 1000", L "type: epic", L "---", L "Body text."])]

/-- Two loaded files claiming the same original identifier `7`. -/
def filesDupId : List (Line × Doc) :=
  [(L "specs/first.md", [L "---", L "id: 7", L "type: task", L "---", L "first body"]),
   (L "specs/second.md", [L "---", L "id: 7", L "type: task", L "---", L "second body"])]

/-- A metadata mapping whose string value contains `#`. -/
def mTitleHash : Metadata := [(L "title", .scalar (.str (L "a#b")))]

/-- A two-node corpus for the write-before-delete witness. -/
def sdTwoNodes : SpecsData :=
  [mkSpecEntry (.scalar (.int 1)) "epic" none "specs/1.md",
   mkSpecEntry (.scalar (.int 11)) "feature" (some (.scalar (.str (L "1")))) "specs/1/11.md"]

instance : IsTotal Line (fun a b => sortKey a ≤ sortKey b) :=
  ⟨fun a b => Nat.le_total _ _⟩

instance : IsTrans Line (fun a b => sortKey a ≤ sortKey b) :=
  ⟨fun _ _ _ => Nat.le_trans⟩

/-! ### Well-formed metadata for the codec round-trip -/

def alphaChars : Line := L "abcdefghijklmnopqrstuvwxyzABCDEFGHIJKLMNOPQRSTUVWXYZ"

def keyChars : Line := alphaChars ++ L "0123456789_-"

def valChars : Line := alphaChars ++ L "0123456789_-./"

def reservedToks : List Line := boolTrueToks ++ boolFalseToks ++ nullToks

/-- A field key as the corpus writes them: a letter followed by
letters/digits/underscore/hyphen. -/
def plainKeyOk (k : Line) : Bool :=
  match k with
  | [] => false
  | c :: _ => c ∈ alphaChars && k.all (fun ch => ch ∈ keyChars)

/-- A string scalar that PyYAML emits plain and resolves back as the same
string: a letter head, letters/digits/`_-./` body, no `#`, and not a
boolean/null keyword. -/
def plainStrOk (s : Line) : Bool :=
  match s with
  | [] => false
  | c :: _ => c ∈ alphaChars && s.all (fun ch => ch ∈ valChars) && !(s ∈ reservedToks)

def wfScalar : YScalar → Bool
  | .str s => plainStrOk s
  | .int _ => true
  | .bool _ => true
  | .null => true

def wfValue : YValue → Bool
  | .scalar s => wfScalar s
  | .list xs => xs.all wfScalar

/-- The hypotheses of the round-trip: a nonempty mapping of plain keys and
recognized scalar/sequence values with no duplicate keys. -/
def wfMetadata (m : Metadata) : Prop :=
  m ≠ [] ∧ (∀ p ∈ m, plainKeyOk p.1 = true ∧ wfValue p.2 = true) ∧
    (m.map Prod.fst).Nodup

instance (m : Metadata) : Decidable (wfMetadata m) := by
  unfold wfMetadata
  infer_instance

def secAfter (sec k : Line) : Line :=
  if k = L "id" then sec
  else if k = L "parent" then L "hierarchy"
  else if k = L "status" then L "workflow"
  else if k = L "created" then L "tracking"
  else if k = L "dependencies" then L "dependencies"
  else if k = L "pull_requests" then L "implementation"
  else if k = L "tags" then L "metadata"
  else sec

def bannerOut (sec k : Line) : List Line :=
  if k = L "id" then []
  else if k = L "parent" then
    (if sec = L "hierarchy" then [] else sectionHeaderFor (L "HIERARCHY"))
  else if k = L "status" then
    (if sec = L "workflow" then [] else sectionHeaderFor (L "WORKFLOW"))
  else if k = L "created" then
    (if sec = L "tracking" then [] else sectionHeaderFor (L "TRACKING"))
  else if k = L "dependencies" then
    (if sec = L "dependencies" then [] else sectionHeaderFor (L "DEPENDENCIES"))
  else if k = L "pull_requests" then
    (if sec = L "implementation" then [] else sectionHeaderFor (L "IMPLEMENTATION"))
  else if k = L "tags" then
    (if sec = L "metadata" then [] else sectionHeaderFor (L "METADATA"))
  else []

def keyLineOut (k l : Line) : Line :=
  if k = L "id" then l ++ idCommentSuffix else l

/-- No line of `R` before the first non-blank line is a `- ` item line. -/
def noItemAhead : List Line → Bool
  | [] => true
  | l :: r => if isBlankL l then noItemAhead r else !((L "- ").isPrefixOf l)

/-- The dumped field lines of a whole mapping (the nonempty case of
`yamlDump`). -/
def fieldsDump (m : Metadata) : List Line :=
  m.flatMap (fun p => dumpFieldLines p.1 p.2)

/-- The value part of a field's first dumped line. -/
def vtailOf : YValue → Line
  | .scalar s => ' ' :: dumpScalar s
  | .list [] => ' ' :: '[' :: ']' :: []
  | .list (_ :: _) => []

/-- The indentless item lines of a field (empty for scalars). -/
def itemsOf : YValue → List Line
  | .list (x :: xs) => (x :: xs).map (fun y => '-' :: ' ' :: dumpScalar y)
  | _ => []

def mWitnessC5 : Metadata :=
  [(L "id", YValue.scalar (YScalar.str (L "deadbeef"))),
   (L "tags", YValue.list [YScalar.str (L "auth"), YScalar.int 3])]

theorem ofDigitsRev_toDigitsRev (fuel n : Nat) (h : n ≤ fuel) :
    ofDigitsRev (toDigitsRev fuel n) = n := by
  induction fuel generalizing n with
  | zero =>
    interval_cases n
    simp [toDigitsRev, ofDigitsRev]
  | succ f ih =>
    by_cases hn : n < 10
    · simp [toDigitsRev, hn, ofDigitsRev]
    · have hdiv : n / 10 ≤ f := by
        have h1 : n / 10 < n := Nat.div_lt_self (by omega) (by omega)
        omega
      simp only [toDigitsRev, hn, if_false, ofDigitsRev, List.foldr_cons]
      have := ih (n / 10) hdiv
      simp only [ofDigitsRev] at this
      rw [this]
      omega

theorem toDigitsRev_lt_ten (fuel n : Nat) : ∀ d ∈ toDigitsRev fuel n, d < 10 := by
  induction fuel generalizing n with
  | zero => simp [toDigitsRev]
  | succ f ih =>
    intro d hd
    by_cases hn : n < 10
    · simp [toDigitsRev, hn] at hd
      omega
    · simp only [toDigitsRev, hn, if_false, List.mem_cons] at hd
      rcases hd with hd | hd
      · omega
      · exact ih _ d hd

theorem digitChar_inj : ∀ a < 10, ∀ b < 10, Nat.digitChar a = Nat.digitChar b → a = b := by
  decide

theorem map_digitChar_inj (as : List Nat) :
    ∀ (bs : List Nat), (∀ d ∈ as, d < 10) → (∀ d ∈ bs, d < 10) →
    as.map Nat.digitChar = bs.map Nat.digitChar → as = bs := by
  induction as with
  | nil => intro bs _ _ h; cases bs with
    | nil => rfl
    | cons b bs => simp at h
  | cons a as ih =>
    intro bs ha hb h
    cases bs with
    | nil => simp at h
    | cons b bs =>
      simp only [List.map_cons, List.cons.injEq] at h
      have hab : a = b := digitChar_inj a (ha a (by simp)) b (hb b (by simp)) h.1
      have : as = bs :=
        ih bs (fun d hd => ha d (by simp [hd])) (fun d hd => hb d (by simp [hd])) h.2
      rw [hab, this]

theorem natRepr_inj {m n : Nat} (h : natRepr m = natRepr n) : m = n := by
  unfold natRepr at h
  have h2 : (toDigitsRev (m + 1) m).reverse = (toDigitsRev (n + 1) n).reverse :=
    map_digitChar_inj _ _
      (fun d hd => toDigitsRev_lt_ten _ _ d (List.mem_reverse.mp hd))
      (fun d hd => toDigitsRev_lt_ten _ _ d (List.mem_reverse.mp hd)) h
  have h3 : toDigitsRev (m + 1) m = toDigitsRev (n + 1) n :=
    List.reverse_injective h2
  have hm := ofDigitsRev_toDigitsRev (m + 1) m (by omega)
  have hn := ofDigitsRev_toDigitsRev (n + 1) n (by omega)
  rw [← hm, ← hn, h3]

theorem ofDigitsRev_append_zero (ds : List Nat) :
    ofDigitsRev (ds ++ [0]) = ofDigitsRev ds := by
  unfold ofDigitsRev
  rw [List.foldr_append]
  induction ds with
  | nil => simp
  | cons d ds ih => simp only [List.foldr_cons] at *; rw [ih]

theorem fmt2_inj {m n : Nat} (h : fmt2 m = fmt2 n) : m = n := by
  have key : ∀ a b : Nat, a < 10 → ¬ b < 10 → '0' :: natRepr a ≠ natRepr b := by
    intro a b _ hb hcontra
    have h0 : natRepr b = ('0' :: natRepr a) := hcontra.symm
    have h0' : (toDigitsRev (b + 1) b).reverse.map Nat.digitChar =
        (0 :: (toDigitsRev (a + 1) a).reverse).map Nat.digitChar := by
      simpa [natRepr, Nat.digitChar] using h0
    have hdig : (toDigitsRev (b + 1) b).reverse = 0 :: (toDigitsRev (a + 1) a).reverse := by
      apply map_digitChar_inj
      · intro d hd; exact toDigitsRev_lt_ten _ _ d (List.mem_reverse.mp hd)
      · intro d hd
        rcases List.mem_cons.mp hd with rfl | hd
        · omega
        · exact toDigitsRev_lt_ten _ _ d (List.mem_reverse.mp hd)
      · exact h0'
    have hdig2 : toDigitsRev (b + 1) b = toDigitsRev (a + 1) a ++ [0] := by
      have := congrArg List.reverse hdig
      simpa using this
    have hb' : ofDigitsRev (toDigitsRev (b + 1) b) = b :=
      ofDigitsRev_toDigitsRev _ _ (by omega)
    have ha' : ofDigitsRev (toDigitsRev (a + 1) a) = a :=
      ofDigitsRev_toDigitsRev _ _ (by omega)
    rw [hdig2, ofDigitsRev_append_zero, ha'] at hb'
    omega
  unfold fmt2 at h
  by_cases hm : m < 10 <;> by_cases hn : n < 10 <;> simp [hm, hn] at h
  · exact natRepr_inj h
  · exact absurd h (key m n hm hn)
  · exact absurd h.symm (key n m hn hm)
  · exact natRepr_inj h

theorem takeListItems_rest_length : ∀ ls : List Line, (takeListItems ls).2.length ≤ ls.length := by
  intro ls
  induction ls with
  | nil => simp [takeListItems]
  | cons l rest ih =>
    unfold takeListItems
    by_cases h1 : (L "- ").isPrefixOf l
    · simp only [h1, if_true]
      simpa using Nat.le_succ_of_le ih
    · simp only [h1, if_false]
      by_cases h2 : isBlankL l
      · simp only [h2, if_true]
        by_cases h3 : (takeListItems rest).1 = []
        · simp [h3]
        · simp only [h3, if_false]
          exact Nat.le_succ_of_le ih
      · simp [h2]

/-! ### Claim theorems -/

/-- Claim C8: body-text rewriting replaces an old id only as a whole token
not immediately followed by `.md`, rewrites `{old_id}.md` to
`{new_id}/spec.md`, and in particular the body
`See 1013 and 1013.md for details.` under `1013 → T03` becomes
`See T03 and T03/spec.md for details.`; a digit run containing the id and a
letter-suffixed occurrence stay untouched. -/
theorem claim_C8_body_rewrite :
    rewriteLineAll [(L "1013", L "T03")] (L "See 1013 and 1013.md for details.") =
      L "See T03 and T03/spec.md for details." ∧
    rewriteLineAll [(L "1013", L "T03")] (L "totals 11013 and 10135 and x1013x") =
      L "totals 11013 and 10135 and x1013x" ∧
    rewriteLineAll [(L "1013", L "T03")] (L "plain 1013.md") = L "plain T03/spec.md" := by
  decide

/-- Claim C10: with a YAML-integer `parent` value, grouping coerces the
parent to a string, so the feature is numbered under its epic (`F01`, not
the orphan fallback); but the raw un-coerced value fails the string-keyed
lookups, so the new path omits the epic and the `parent` field survives the
rewrite as the integer `1000` even though the epic is loaded and mapped. -/
theorem claim_C10_int_parent :
    lookupNewId (L "1000") (buildHierarchyMap sdIntParent) = some (L "E01") ∧
    lookupNewId (L "1001") (buildHierarchyMap sdIntParent) = some (L "F01") ∧
    newPathParts sdIntParent (buildHierarchyMap sdIntParent) (L "1001") =
      [L "specs", L "F01"] ∧
    lookupMeta (L "parent")
      (rewriteMetadata (buildHierarchyMap sdIntParent) uidConst (L "1001")
        (metadataOf sdIntParent (L "1001"))) = some (.scalar (.int 1000)) := by
  decide

/-- Claim C1, counterexample: the identifier mapping is not injective over
the whole corpus — the first feature of each of two distinct epics receives
the same new id `F01`. -/
theorem claim_C1_counterexample :
    lookupNewId (L "10") (buildHierarchyMap sdTwoEpicsTwoFeatures) = some (L "F01") ∧
    lookupNewId (L "20") (buildHierarchyMap sdTwoEpicsTwoFeatures) = some (L "F01") ∧
    (L "10") ≠ (L "20") := by
  decide

/-- Claim C9, counterexample: non-numeric old ids are not sorted
lexicographically — they all receive key `0`, so load order decides; epics
loaded as `"b"`, `"a"` map to `E01`, `E02` where a lexicographic key would
give `"a" → E01`. -/
theorem claim_C9_counterexample :
    lookupNewId (L "b") (buildHierarchyMap sdEpicsNonNumeric) = some (L "E01") ∧
    lookupNewId (L "a") (buildHierarchyMap sdEpicsNonNumeric) = some (L "E02") := by
  decide

/-- Claim C5, counterexample: a mapping whose string value contains `#` does
not round-trip — the comment-stripping heuristic truncates the value, so
`decode(encode({title: "a#b"}))` returns `{title: "a"}`. -/
theorem claim_C5_counterexample :
    parseYamlFrontmatter (encodeFrontmatter mTitleHash [[]]) =
      ([(L "title", .scalar (.str (L "a")))], [[]]) ∧
    mTitleHash ≠ [(L "title", .scalar (.str (L "a")))] := by
  decide

/-- Claim C6, counterexample: two files claiming the same id `7` do not
surface any conflict — the loader's table silently keeps only the
later file's document (last write wins). -/
theorem claim_C6_counterexample :
    (loadAllSpecs filesDupId).length = 1 ∧
    (lookupInfo (L "7") (loadAllSpecs filesDupId)).map SpecInfo.file_path =
      some (L "specs/second.md") ∧
    (lookupInfo (L "7") (loadAllSpecs filesDupId)).map SpecInfo.body =
      some [L "second body"] := by
  decide

/-- Claim C7, counterexample: an unresolved `parent` old id survives the
rewrite verbatim — after rewriting, the node's `parent` is still `"99"`,
which is neither empty nor a value of the identifier mapping. -/
theorem claim_C7_counterexample :
    lookupMeta (L "parent")
      (rewriteMetadata (buildHierarchyMap sdOrphanParent) uidConst (L "42")
        (metadataOf sdOrphanParent (L "42"))) = some (.scalar (.str (L "99"))) ∧
    (L "99") ≠ ([] : Line) ∧
    (buildHierarchyMap sdOrphanParent).all (fun p => p.2 ≠ L "99") = true := by
  decide

/-- Claim C3, counterexample: running the full pipeline a second time on the
output of a first run performs mutations — the mapped file is rewritten in
place and then deleted by the cleanup phase; nothing detects that the
loaded id is already in the new format. -/
theorem claim_C3_counterexample :
    (runOps (applyFs corpusOne (runOps corpusOne (fun _ => L "deadbeef") none).1)
        (fun _ => L "deadbeef") none).1 ≠ [] ∧
    FsOp.delete (L "specs/E01/spec.md") ∈
      (runOps (applyFs corpusOne (runOps corpusOne (fun _ => L "deadbeef") none).1)
        (fun _ => L "deadbeef") none).1 := by
  decide

/-- Claim C4 (code bug): on a parent-link cycle the ancestor walk of
`get_new_path` never terminates — for every amount of fuel the loop is
still running (no cycle detection exists, so the Python `while` loop spins
forever instead of reporting a broken hierarchy). -/
theorem claim_C4_cycle_walk_diverges :
    ∀ (fuel : Nat) (acc : List Line),
      walkHierarchy sdCycle (buildHierarchyMap sdCycle) fuel (L "1") acc = none ∧
      walkHierarchy sdCycle (buildHierarchyMap sdCycle) fuel (L "2") acc = none := by
  intro fuel
  induction fuel with
  | zero => intro acc; exact ⟨rfl, rfl⟩
  | succ n ih =>
    intro acc
    constructor
    · have hstep : walkHierarchy sdCycle (buildHierarchyMap sdCycle) (n + 1) (L "1") acc =
          walkHierarchy sdCycle (buildHierarchyMap sdCycle) n (L "2")
            ((L "F99_1") :: acc) := by rfl
      rw [hstep]
      exact (ih _).2
    · have hstep : walkHierarchy sdCycle (buildHierarchyMap sdCycle) (n + 1) (L "2") acc =
          walkHierarchy sdCycle (buildHierarchyMap sdCycle) n (L "1")
            ((L "F99_2") :: acc) := by rfl
      rw [hstep]
      exact (ih _).1

theorem migrateWriteLoop_fail (sd : SpecsData) (sm : List (Line × Line)) (uid : Line → Line) :
    ∀ (l : List (Line × SpecInfo)) (i n : Nat), i ≤ n → n - i < l.length →
    migrateWriteLoop sd sm uid (some n) l i =
      ((l.take (n - i)).map
        (fun e => FsOp.write (specPathOf sd sm e.1) (updateSpecContent sd sm uid e.1)), true) := by
  intro l
  induction l with
  | nil =>
    intro i n _ h2
    simp at h2
  | cons e rest ih =>
    intro i n h1 h2
    by_cases hni : n = i
    · subst hni
      simp [migrateWriteLoop, Nat.sub_self]
    · have hlt : i < n := by omega
      have hrec := ih (i + 1) n (by omega) (by simp at h2; omega)
      have hsub : n - i = (n - (i + 1)) + 1 := by omega
      simp only [migrateWriteLoop, Option.some.injEq]
      rw [if_neg (by omega)]
      rw [hrec, hsub, List.take_succ_cons, List.map_cons]

/-- Claim C2: all new-location writes happen before any deletion.  If the
write of the node at (0-based) index `n` fails, the run halts with exactly
the writes of the first `n` nodes performed, no delete operation issued,
and no operation touching any original file path (under the corpus-level
facts that ancestor walks terminate — the model is the Python loop only on
cycle-free tables — and that new spec paths differ from the original
paths). -/
theorem claim_C2_write_before_delete
    (files : List (Line × Doc)) (sd : SpecsData) (sm : List (Line × Line))
    (uid : Line → Line) (n : Nat)
    (hn : n < sd.length)
    (hacyclic : ∀ e ∈ sd, (walkHierarchy sd sm (sd.length + 1) e.1 []).isSome = true)
    (hfresh : ∀ e ∈ sd, ∀ e' ∈ sd, specPathOf sd sm e.1 ≠ e'.2.file_path) :
    (performMigrationOps files sd sm uid (some n)).2 = true ∧
    (performMigrationOps files sd sm uid (some n)).1 =
      (sd.take n).map
        (fun e => FsOp.write (specPathOf sd sm e.1) (updateSpecContent sd sm uid e.1)) ∧
    (∀ op ∈ (performMigrationOps files sd sm uid (some n)).1, op.isDelete = false) ∧
    (∀ op ∈ (performMigrationOps files sd sm uid (some n)).1,
       ∀ e ∈ sd, op.target ≠ e.2.file_path) := by
  have hloop := migrateWriteLoop_fail sd sm uid sd 0 n (by omega) (by simpa using hn)
  have hperf : performMigrationOps files sd sm uid (some n) =
      ((sd.take n).map
        (fun e => FsOp.write (specPathOf sd sm e.1) (updateSpecContent sd sm uid e.1)), true) := by
    simp only [performMigrationOps, hloop, Nat.sub_zero, if_true]
  refine ⟨by rw [hperf], by rw [hperf], ?_, ?_⟩
  · intro op hop
    rw [hperf] at hop
    simp only [List.mem_map] at hop
    obtain ⟨e, _, rfl⟩ := hop
    rfl
  · intro op hop e' he'
    rw [hperf] at hop
    simp only [List.mem_map] at hop
    obtain ⟨e, he, rfl⟩ := hop
    exact hfresh e (List.mem_of_mem_take he) e' he'

/-- Witness for C2 at a concrete two-node corpus with the failure injected
on the second node. -/
theorem claim_C2_witness :
    (performMigrationOps [] sdTwoNodes (buildHierarchyMap sdTwoNodes) uidConst (some 1)).2
        = true ∧
    (performMigrationOps [] sdTwoNodes (buildHierarchyMap sdTwoNodes) uidConst (some 1)).1 =
      (sdTwoNodes.take 1).map
        (fun e => FsOp.write (specPathOf sdTwoNodes (buildHierarchyMap sdTwoNodes) e.1)
          (updateSpecContent sdTwoNodes (buildHierarchyMap sdTwoNodes) uidConst e.1)) ∧
    (∀ op ∈ (performMigrationOps [] sdTwoNodes (buildHierarchyMap sdTwoNodes) uidConst
        (some 1)).1, op.isDelete = false) ∧
    (∀ op ∈ (performMigrationOps [] sdTwoNodes (buildHierarchyMap sdTwoNodes) uidConst
        (some 1)).1, ∀ e ∈ sdTwoNodes, op.target ≠ e.2.file_path) :=
  claim_C2_write_before_delete [] sdTwoNodes (buildHierarchyMap sdTwoNodes) uidConst 1
    (by decide) (by decide) (by decide)

theorem lookupNewId_append (k : Line) (l₁ l₂ : List (Line × Line)) :
    lookupNewId k (l₁ ++ l₂) =
      match lookupNewId k l₁ with
      | some v => some v
      | none => lookupNewId k l₂ := by
  induction l₁ with
  | nil => simp [lookupNewId]
  | cons p rest ih =>
    by_cases h : k = p.1
    · simp [lookupNewId, h]
    · simp only [List.cons_append, lookupNewId, if_neg h]
      exact ih

theorem lookupNewId_isSome_of_mem {k v : Line} {l : List (Line × Line)}
    (h : (k, v) ∈ l) : (lookupNewId k l).isSome = true := by
  induction l with
  | nil => simp at h
  | cons p rest ih =>
    by_cases hk : k = p.1
    · simp [lookupNewId, hk]
    · simp only [lookupNewId, if_neg hk]
      rcases List.mem_cons.mp h with hh | hh
      · exact absurd (congrArg Prod.fst hh) hk
      · exact ih hh

theorem lookupInfo_isSome_mem {k : Line} {sd : SpecsData}
    (h : (lookupInfo k sd).isSome = true) : ∃ info, (k, info) ∈ sd := by
  induction sd with
  | nil => simp [lookupInfo] at h
  | cons e rest ih =>
    by_cases hk : k = e.1
    · exact ⟨e.2, by simp [hk]⟩
    · simp only [lookupInfo, if_neg hk] at h
      obtain ⟨info, hmem⟩ := ih h
      exact ⟨info, by simp [hmem]⟩

/-- Claim C1 (amended): the identifier mapping is total over the loaded
nodes — the orphan fallback covers every id the nested loops leave
unassigned — and within each single numbering scope it is injective: the
sequential counter of one scope never hands out the same new id twice.
(Globally it is not injective; see the counterexample.) -/
theorem claim_C1_amended :
    (∀ (sd : SpecsData) (k : Line), (lookupInfo k sd).isSome = true →
      (lookupNewId k (buildHierarchyMap sd)).isSome = true) ∧
    (∀ (letter : Char) (ids : List Line), ((assignSeq letter ids).map Prod.snd).Nodup) := by
  constructor
  · intro sd k h
    obtain ⟨info, hmem⟩ := lookupInfo_isSome_mem h
    rw [buildHierarchyMap, lookupNewId_append]
    cases hassigned : lookupNewId k (assignedPairs sd) with
    | some v => simp
    | none =>
      simp only
      have horphan : (k, typeLetterOf info.type :: L "99_" ++ k) ∈ orphanPairs sd := by
        rw [orphanPairs]
        exact List.mem_filterMap.mpr ⟨(k, info), hmem, by simp [hassigned]⟩
      exact lookupNewId_isSome_of_mem horphan
  · intro letter ids
    have hmap : (assignSeq letter ids).map Prod.snd =
        (List.range ids.length).map (fun i => letter :: fmt2 (i + 1)) := by
      rw [assignSeq, List.map_map]
      have : (Prod.snd ∘ fun p : Nat × Line => (p.2, letter :: fmt2 (p.1 + 1))) =
          (fun i => letter :: fmt2 (i + 1)) ∘ Prod.fst := rfl
      rw [this, ← List.map_map, List.enum_map_fst]
    rw [hmap]
    apply List.Nodup.map
    · intro i j hij
      simp only [List.cons.injEq] at hij
      have := fmt2_inj hij.2
      omega
    · exact List.nodup_range _

/-- Witness for the amended C1: totality instantiated at a concrete corpus
and scope. -/
theorem claim_C1_amended_witness :
    (lookupNewId (L "10") (buildHierarchyMap sdTwoEpicsTwoFeatures)).isSome = true ∧
    ((assignSeq 'F' [L "10", L "20"]).map Prod.snd).Nodup :=
  ⟨claim_C1_amended.1 sdTwoEpicsTwoFeatures (L "10") (by decide),
   claim_C1_amended.2 'F' [L "10", L "20"]⟩

/-- Claim C9 (amended): each group is sorted by the deterministic key
`numeric value when the old id is purely numeric, else 0` — a stable
permutation sorted under that key, not a lexicographic order — and the
spec's numeric scenario holds: epics `"3"`, `"1"` receive `E02`, `E01` and
each feature `F01` under its own epic. -/
theorem claim_C9_amended :
    (∀ ids : List Line, (sortByKey ids).Sorted (fun a b => sortKey a ≤ sortKey b) ∧
       List.Perm (sortByKey ids) ids) ∧
    lookupNewId (L "1") (buildHierarchyMap sdScenario31) = some (L "E01") ∧
    lookupNewId (L "3") (buildHierarchyMap sdScenario31) = some (L "E02") ∧
    lookupNewId (L "11") (buildHierarchyMap sdScenario31) = some (L "F01") ∧
    lookupNewId (L "31") (buildHierarchyMap sdScenario31) = some (L "F01") := by
  refine ⟨fun ids => ⟨?_, ?_⟩, by decide, by decide, by decide, by decide⟩
  · exact List.sorted_insertionSort _ ids
  · exact List.perm_insertionSort _ ids

theorem lookupInfo_setInfo_self (k : Line) (info : SpecInfo) (sd : SpecsData) :
    lookupInfo k (setInfo k info sd) = some info := by
  induction sd with
  | nil => simp [setInfo, lookupInfo]
  | cons e rest ih =>
    by_cases hk : k = e.1
    · simp [setInfo, lookupInfo, hk]
    · simp [setInfo, lookupInfo, hk, ih]

theorem lookupInfo_setInfo_ne {k k' : Line} (hne : k ≠ k') (info : SpecInfo)
    (sd : SpecsData) : lookupInfo k (setInfo k' info sd) = lookupInfo k sd := by
  induction sd with
  | nil => simp [setInfo, lookupInfo, hne]
  | cons e rest ih =>
    by_cases hk : k' = e.1
    · subst hk
      simp [setInfo, lookupInfo, hne]
    · by_cases hk2 : k = e.1
      · simp [setInfo, lookupInfo, hk, hk2]
      · simp [setInfo, lookupInfo, hk, hk2, ih]

theorem lookupInfo_loadStep_other {k : Line} {f : Line × Doc} (sd : SpecsData)
    (h : ∀ info', loadRecord f ≠ some (k, info')) :
    lookupInfo k (loadStep sd f) = lookupInfo k sd := by
  unfold loadStep
  cases hrec : loadRecord f with
  | none => rfl
  | some p =>
    obtain ⟨k', info'⟩ := p
    have hne : k ≠ k' := by
      intro hkk
      exact h info' (by rw [hrec, hkk])
    exact lookupInfo_setInfo_ne hne info' sd

theorem lookupInfo_foldl_other {k : Line} (fs : List (Line × Doc))
    (h : ∀ g ∈ fs, ∀ info', loadRecord g ≠ some (k, info')) :
    ∀ sd : SpecsData, lookupInfo k (fs.foldl loadStep sd) = lookupInfo k sd := by
  induction fs with
  | nil => intro sd; rfl
  | cons g rest ih =>
    intro sd
    rw [List.foldl_cons,
      ih (fun g' hg' => h g' (by simp [hg'])),
      lookupInfo_loadStep_other sd (h g (by simp))]

/-- Claim C6 (amended): when several loaded files carry the same string-form
id, the loader keeps the record of the last such file and silently drops
the earlier ones — last write wins, and no conflict is surfaced anywhere in
the loader's output. -/
theorem claim_C6_amended (fs₁ fs₂ : List (Line × Doc)) (f : Line × Doc)
    (k : Line) (info : SpecInfo)
    (hf : loadRecord f = some (k, info))
    (hafter : ∀ g ∈ fs₂, ∀ info', loadRecord g ≠ some (k, info')) :
    lookupInfo k (loadAllSpecs (fs₁ ++ f :: fs₂)) = some info := by
  rw [loadAllSpecs, List.foldl_append, List.foldl_cons]
  rw [lookupInfo_foldl_other fs₂ hafter]
  rw [loadStep, hf]
  exact lookupInfo_setInfo_self k info _

/-- Witness for the amended C6: the duplicated id `7` resolves to the
second file's record. -/
theorem claim_C6_amended_witness :
    lookupInfo (L "7") (loadAllSpecs filesDupId) =
      some { metadata := [(L "id", .scalar (.int 7)), (L "type", .scalar (.str (L "task")))],
             body := [L "second body"], file_path := L "specs/second.md",
             type := .scalar (.str (L "task")) } := by
  have h := claim_C6_amended [(L "specs/first.md",
      [L "---", L "id: 7", L "type: task", L "---", L "first body"])] []
    (L "specs/second.md", [L "---", L "id: 7", L "type: task", L "---", L "second body"])
    (L "7")
    { metadata := [(L "id", .scalar (.int 7)), (L "type", .scalar (.str (L "task")))],
      body := [L "second body"], file_path := L "specs/second.md",
      type := .scalar (.str (L "task")) }
    (by decide) (by intro g hg; simp at hg)
  exact h

/-- Claim C3 (amended): `fix_spec_ids` does detect conformant identifiers —
when every candidate file's loaded id already matches the eight-hex format
(or the file is skipped for lacking metadata), a re-run performs zero
writes.  The migrator's `run`, by contrast, has no such check and always
rewrites and deletes (see the counterexample). -/
theorem claim_C3_amended (files : List (Line × Doc)) (freshId : Line)
    (h : ∀ f ∈ files, isFixCandidatePath f.1 = true →
      (parseYamlFrontmatterFix f.2).1 = [] ∨
      hasKey (L "id") (parseYamlFrontmatterFix f.2).1 = false ∨
      isUuid8 (pyStr
        ((lookupMeta (L "id") (parseYamlFrontmatterFix f.2).1).getD (.scalar .null))) = true) :
    fixSpecIdsOps files freshId = [] := by
  have main : ∀ (fs : List (Line × Doc)),
      (∀ f ∈ fs, isFixCandidatePath f.1 = true →
        (parseYamlFrontmatterFix f.2).1 = [] ∨
        hasKey (L "id") (parseYamlFrontmatterFix f.2).1 = false ∨
        isUuid8 (pyStr
          ((lookupMeta (L "id") (parseYamlFrontmatterFix f.2).1).getD (.scalar .null))) = true) →
      ∀ acc, fs.foldl
        (fun ops f =>
          if isFixCandidatePath f.1 then
            let parsed := parseYamlFrontmatterFix f.2
            let md := parsed.1
            if md = [] ∨ ¬ hasKey (L "id") md then ops
            else
              let currentId := pyStr ((lookupMeta (L "id") md).getD (.scalar .null))
              if isUuid8 currentId then ops
              else
                let newIdVal :=
                  match lookupMeta (L "unique_id") md with
                  | some v => v
                  | none => .scalar (.str freshId)
                let md' := assocSetVal (L "id") newIdVal (removeKey (L "unique_id") md)
                ops ++ [FsOp.write f.1 (formatYamlWithComments md' ++ [[]] ++ parsed.2)]
          else ops) acc = acc := by
    intro fs
    induction fs with
    | nil => intro _ acc; rfl
    | cons f rest ih =>
      intro hall acc
      rw [List.foldl_cons]
      have hstep :
          (if isFixCandidatePath f.1 then
            let parsed := parseYamlFrontmatterFix f.2
            let md := parsed.1
            if md = [] ∨ ¬ hasKey (L "id") md then acc
            else
              let currentId := pyStr ((lookupMeta (L "id") md).getD (.scalar .null))
              if isUuid8 currentId then acc
              else
                let newIdVal :=
                  match lookupMeta (L "unique_id") md with
                  | some v => v
                  | none => .scalar (.str freshId)
                let md' := assocSetVal (L "id") newIdVal (removeKey (L "unique_id") md)
                acc ++ [FsOp.write f.1 (formatYamlWithComments md' ++ [[]] ++ parsed.2)]
          else acc) = acc := by
        by_cases hc : isFixCandidatePath f.1 = true
        · rcases hall f (by simp) hc with hmd | hmd | hmd
          · simp [hc, hmd]
          · have : ((parseYamlFrontmatterFix f.2).1 = [] ∨
                ¬ hasKey (L "id") (parseYamlFrontmatterFix f.2).1) := by
              right
              simp [hmd]
            simp only [hc, if_true, this, if_pos]
          · by_cases hmd0 : ((parseYamlFrontmatterFix f.2).1 = [] ∨
                ¬ hasKey (L "id") (parseYamlFrontmatterFix f.2).1)
            · simp only [hc, if_true, hmd0, if_pos]
            · simp only [hc, if_true, hmd0, if_neg, not_false_iff, hmd, if_true]
        · simp [hc]
      rw [hstep]
      exact ih (fun f' hf' => hall f' (by simp [hf'])) acc
  exact main files h []

/-- Witness for the amended C3: the output of a full first run is
conformant, so `fix_spec_ids` on it performs zero writes. -/
theorem claim_C3_amended_witness :
    fixSpecIdsOps (applyFs corpusOne (runOps corpusOne (fun _ => L "deadbeef") none).1)
      (L "12345678") = [] :=
  claim_C3_amended _ _ (by decide)

theorem lookupMeta_assocSetVal_self (k : Line) (v : YValue) (m : Metadata) :
    lookupMeta k (assocSetVal k v m) = some v := by
  induction m with
  | nil => simp [assocSetVal, lookupMeta]
  | cons e rest ih =>
    by_cases hk : k = e.1
    · simp [assocSetVal, lookupMeta, hk]
    · simp [assocSetVal, lookupMeta, hk, ih]

theorem lookupMeta_assocSetVal_ne {k k' : Line} (hne : k ≠ k') (v : YValue)
    (m : Metadata) : lookupMeta k (assocSetVal k' v m) = lookupMeta k m := by
  induction m with
  | nil => simp [assocSetVal, lookupMeta, hne]
  | cons e rest ih =>
    by_cases hk : k' = e.1
    · subst hk
      simp [assocSetVal, lookupMeta, hne]
    · by_cases hk2 : k = e.1
      · simp [assocSetVal, lookupMeta, hk, hk2]
      · simp [assocSetVal, lookupMeta, hk, hk2, ih]

theorem lookupMeta_removeKey_ne {k k' : Line} (hne : k ≠ k') (m : Metadata) :
    lookupMeta k (removeKey k' m) = lookupMeta k m := by
  induction m with
  | nil => simp [removeKey]
  | cons e rest ih =>
    by_cases hk : k' = e.1
    · subst hk
      simp [removeKey, lookupMeta, hne]
    · by_cases hk2 : k = e.1
      · simp [removeKey, lookupMeta, hk, hk2]
      · simp [removeKey, lookupMeta, hk, hk2, ih]

theorem lookupNewId_mem {k v : Line} {l : List (Line × Line)}
    (h : lookupNewId k l = some v) : (k, v) ∈ l := by
  induction l with
  | nil => simp [lookupNewId] at h
  | cons p rest ih =>
    by_cases hk : k = p.1
    · rw [lookupNewId, if_pos hk] at h
      have h2 : p.2 = v := by injection h
      have hkv : (k, v) = p := by
        cases p
        simp only [Prod.mk.injEq]
        exact ⟨hk, h2.symm⟩
      rw [hkv]
      exact List.mem_cons_self _ _
    · rw [lookupNewId, if_neg hk] at h
      exact List.mem_cons_of_mem _ (ih h)

theorem lookupMeta_promoteId_ne {k : Line} (hid : k ≠ L "id") (huid : k ≠ L "unique_id")
    (uid : Line → Line) (oldId : Line) (md : Metadata) :
    lookupMeta k (promoteId uid oldId md) = lookupMeta k md := by
  rw [promoteId, lookupMeta_assocSetVal_ne hid, lookupMeta_removeKey_ne huid]

theorem lookupMeta_rewriteParentField_ne {k : Line} (h : k ≠ L "parent")
    (sm : List (Line × Line)) (md : Metadata) :
    lookupMeta k (rewriteParentField sm md) = lookupMeta k md := by
  rw [rewriteParentField]
  cases lookupMeta (L "parent") md with
  | none => rfl
  | some v =>
    by_cases ht : pyTruthy v = true
    · simp only [ht, if_true]
      cases v with
      | scalar s =>
        cases s with
        | str sv =>
          dsimp only
          cases hlk : lookupNewId sv sm with
          | none => rfl
          | some nid => exact lookupMeta_assocSetVal_ne h _ md
        | int n => rfl
        | bool b => rfl
        | null => rfl
      | list xs => rfl
    · simp [ht]

theorem lookupMeta_rewriteChildrenField_ne {k : Line} (h : k ≠ L "children")
    (sm : List (Line × Line)) (md : Metadata) :
    lookupMeta k (rewriteChildrenField sm md) = lookupMeta k md := by
  rw [rewriteChildrenField]
  cases lookupMeta (L "children") md with
  | none => rfl
  | some v =>
    by_cases ht : pyTruthy v = true
    · simp only [ht, if_true]
      cases v with
      | scalar s => rfl
      | list xs => exact lookupMeta_assocSetVal_ne h _ md
    · simp [ht]

theorem lookupMeta_rewriteEpicField_ne {k : Line} (h : k ≠ L "epic")
    (sm : List (Line × Line)) (md : Metadata) :
    lookupMeta k (rewriteEpicField sm md) = lookupMeta k md := by
  rw [rewriteEpicField]
  cases lookupMeta (L "epic") md with
  | none => rfl
  | some v =>
    by_cases ht : pyTruthy v = true
    · simp only [ht, if_true]
      cases hlk : lookupNewId (pyStr v) sm with
      | none => rfl
      | some nid => exact lookupMeta_assocSetVal_ne h _ md
    · simp [ht]

theorem lookupMeta_rewriteRefListField_ne {k f : Line} (h : k ≠ f)
    (sm : List (Line × Line)) (md : Metadata) :
    lookupMeta k (rewriteRefListField sm f md) = lookupMeta k md := by
  rw [rewriteRefListField]
  cases lookupMeta f md with
  | none => rfl
  | some v =>
    by_cases ht : pyTruthy v = true
    · simp only [ht, if_true]
      cases v with
      | scalar s => rfl
      | list xs => exact lookupMeta_assocSetVal_ne h _ md
    · simp [ht]

theorem rewriteRefListField_spec {f : Line} {xs : List YScalar}
    (sm : List (Line × Line)) (md : Metadata)
    (horig : lookupMeta f md = some (.list xs)) (hne : xs ≠ []) :
    lookupMeta f (rewriteRefListField sm f md) =
      some (.list (((xs.filterMap (fun x => lookupNewId (pyStrScalar x) sm)).map .str))) := by
  rw [rewriteRefListField, horig]
  have ht : pyTruthy (.list xs) = true := by
    simp [pyTruthy, hne]
  simp only [ht, if_true]
  exact lookupMeta_assocSetVal_self _ _ _

theorem rewriteParentField_spec (sm : List (Line × Line)) (md : Metadata) :
    lookupMeta (L "parent") (rewriteParentField sm md) = lookupMeta (L "parent") md ∨
    ∃ s, lookupMeta (L "parent") (rewriteParentField sm md) = some (.scalar (.str s)) ∧
      ∃ k, (k, s) ∈ sm := by
  rw [rewriteParentField]
  cases hp : lookupMeta (L "parent") md with
  | none => left; exact hp
  | some v =>
    by_cases ht : pyTruthy v = true
    · simp only [ht, if_true]
      cases v with
      | scalar s =>
        cases s with
        | str sv =>
          dsimp only
          cases hlk : lookupNewId sv sm with
          | none => left; exact hp
          | some nid =>
            right
            exact ⟨nid, lookupMeta_assocSetVal_self _ _ _, sv, lookupNewId_mem hlk⟩
        | int n => left; exact hp
        | bool b => left; exact hp
        | null => left; exact hp
      | list xs => left; exact hp
    · simp only [ht, if_false]
      left
      exact hp

theorem rewriteEpicField_spec (sm : List (Line × Line)) (md : Metadata) :
    lookupMeta (L "epic") (rewriteEpicField sm md) = lookupMeta (L "epic") md ∨
    ∃ s, lookupMeta (L "epic") (rewriteEpicField sm md) = some (.scalar (.str s)) ∧
      ∃ k, (k, s) ∈ sm := by
  rw [rewriteEpicField]
  cases hp : lookupMeta (L "epic") md with
  | none => left; exact hp
  | some v =>
    by_cases ht : pyTruthy v = true
    · simp only [ht, if_true]
      cases hlk : lookupNewId (pyStr v) sm with
      | none => left; exact hp
      | some nid =>
        right
        exact ⟨nid, lookupMeta_assocSetVal_self _ _ _, pyStr v, lookupNewId_mem hlk⟩
    · simp only [ht, if_false]
      left
      exact hp

/-- Claim C7 (amended): after the rewrite, the three reference list fields
hold only values of the identifier mapping (unmapped entries are dropped);
`parent` and `epic` are each either left exactly as they were — so an
unresolved old id can survive, see the counterexample — or replaced by a
value of the mapping. -/
theorem claim_C7_amended (sm : List (Line × Line)) (uid : Line → Line) (oldId : Line)
    (md : Metadata) :
    (∀ f ∈ [L "dependencies", L "blocks", L "related"],
      ∀ xs : List YScalar, lookupMeta f md = some (.list xs) → xs ≠ [] →
      ∃ ys : List Line,
        lookupMeta f (rewriteMetadata sm uid oldId md) = some (.list (ys.map .str)) ∧
        ∀ y ∈ ys, ∃ k, (k, y) ∈ sm) ∧
    (lookupMeta (L "parent") (rewriteMetadata sm uid oldId md) =
        lookupMeta (L "parent") md ∨
      ∃ s, lookupMeta (L "parent") (rewriteMetadata sm uid oldId md) =
          some (.scalar (.str s)) ∧ ∃ k, (k, s) ∈ sm) ∧
    (lookupMeta (L "epic") (rewriteMetadata sm uid oldId md) =
        lookupMeta (L "epic") md ∨
      ∃ s, lookupMeta (L "epic") (rewriteMetadata sm uid oldId md) =
          some (.scalar (.str s)) ∧ ∃ k, (k, s) ∈ sm) := by
  set md2 := promoteId uid oldId md with hmd2
  set md3 := rewriteParentField sm md2 with hmd3
  set md4 := rewriteChildrenField sm md3 with hmd4
  set md5 := rewriteEpicField sm md4 with hmd5
  set md6 := rewriteRefListField sm (L "dependencies") md5 with hmd6
  set md7 := rewriteRefListField sm (L "blocks") md6 with hmd7
  have hrw : rewriteMetadata sm uid oldId md = rewriteRefListField sm (L "related") md7 := rfl
  refine ⟨?_, ?_, ?_⟩
  · intro f hf xs horig hxs
    have hys : ∀ y ∈ xs.filterMap (fun x => lookupNewId (pyStrScalar x) sm),
        ∃ k, (k, y) ∈ sm := by
      intro y hy
      obtain ⟨x, _, hxy⟩ := List.mem_filterMap.mp hy
      exact ⟨pyStrScalar x, lookupNewId_mem hxy⟩
    simp only [List.mem_cons, List.not_mem_nil, or_false] at hf
    rcases hf with rfl | rfl | rfl
    · -- dependencies
      have h5 : lookupMeta (L "dependencies") md5 = some (.list xs) := by
        rw [hmd5, lookupMeta_rewriteEpicField_ne (by decide),
          hmd4, lookupMeta_rewriteChildrenField_ne (by decide),
          hmd3, lookupMeta_rewriteParentField_ne (by decide),
          hmd2, lookupMeta_promoteId_ne (by decide) (by decide), horig]
      refine ⟨xs.filterMap (fun x => lookupNewId (pyStrScalar x) sm), ?_, hys⟩
      rw [hrw, lookupMeta_rewriteRefListField_ne (by decide),
        hmd7, lookupMeta_rewriteRefListField_ne (by decide), hmd6,
        rewriteRefListField_spec sm md5 h5 hxs]
    · -- blocks
      have h6 : lookupMeta (L "blocks") md6 = some (.list xs) := by
        rw [hmd6, lookupMeta_rewriteRefListField_ne (by decide),
          hmd5, lookupMeta_rewriteEpicField_ne (by decide),
          hmd4, lookupMeta_rewriteChildrenField_ne (by decide),
          hmd3, lookupMeta_rewriteParentField_ne (by decide),
          hmd2, lookupMeta_promoteId_ne (by decide) (by decide), horig]
      refine ⟨xs.filterMap (fun x => lookupNewId (pyStrScalar x) sm), ?_, hys⟩
      rw [hrw, lookupMeta_rewriteRefListField_ne (by decide),
        hmd7, rewriteRefListField_spec sm md6 h6 hxs]
    · -- related
      have h7 : lookupMeta (L "related") md7 = some (.list xs) := by
        rw [hmd7, lookupMeta_rewriteRefListField_ne (by decide),
          hmd6, lookupMeta_rewriteRefListField_ne (by decide),
          hmd5, lookupMeta_rewriteEpicField_ne (by decide),
          hmd4, lookupMeta_rewriteChildrenField_ne (by decide),
          hmd3, lookupMeta_rewriteParentField_ne (by decide),
          hmd2, lookupMeta_promoteId_ne (by decide) (by decide), horig]
      refine ⟨xs.filterMap (fun x => lookupNewId (pyStrScalar x) sm), ?_, hys⟩
      rw [hrw, rewriteRefListField_spec sm md7 h7 hxs]
  · have hkeep : lookupMeta (L "parent") (rewriteMetadata sm uid oldId md) =
        lookupMeta (L "parent") md3 := by
      rw [hrw, lookupMeta_rewriteRefListField_ne (by decide),
        hmd7, lookupMeta_rewriteRefListField_ne (by decide),
        hmd6, lookupMeta_rewriteRefListField_ne (by decide),
        hmd5, lookupMeta_rewriteEpicField_ne (by decide),
        hmd4, lookupMeta_rewriteChildrenField_ne (by decide)]
    have hbase : lookupMeta (L "parent") md2 = lookupMeta (L "parent") md := by
      rw [hmd2, lookupMeta_promoteId_ne (by decide) (by decide)]
    rcases rewriteParentField_spec sm md2 with hcase | ⟨s, hs, hk⟩
    · left
      rw [hkeep, hmd3, hcase, hbase]
    · right
      exact ⟨s, by rw [hkeep, hmd3, hs], hk⟩
  · have hkeep : lookupMeta (L "epic") (rewriteMetadata sm uid oldId md) =
        lookupMeta (L "epic") md5 := by
      rw [hrw, lookupMeta_rewriteRefListField_ne (by decide),
        hmd7, lookupMeta_rewriteRefListField_ne (by decide),
        hmd6, lookupMeta_rewriteRefListField_ne (by decide)]
    have hbase : lookupMeta (L "epic") md4 = lookupMeta (L "epic") md := by
      rw [hmd4, lookupMeta_rewriteChildrenField_ne (by decide),
        hmd3, lookupMeta_rewriteParentField_ne (by decide),
        hmd2, lookupMeta_promoteId_ne (by decide) (by decide)]
    rcases rewriteEpicField_spec sm md4 with hcase | ⟨s, hs, hk⟩
    · left
      rw [hkeep, hmd5, hcase, hbase]
    · right
      exact ⟨s, by rw [hkeep, hmd5, hs], hk⟩

/-- Witness for the amended C7 at a concrete mapping and metadata. -/
theorem claim_C7_amended_witness :
    ∃ ys : List Line,
      lookupMeta (L "dependencies")
        (rewriteMetadata (buildHierarchyMap sdTwoEpicsTwoFeatures) uidConst (L "42")
          [(L "dependencies", .list [.int 1, .str (L "99")])]) =
        some (.list (ys.map .str)) ∧
      ∀ y ∈ ys, ∃ k, (k, y) ∈ buildHierarchyMap sdTwoEpicsTwoFeatures :=
  (claim_C7_amended (buildHierarchyMap sdTwoEpicsTwoFeatures) uidConst (L "42")
      [(L "dependencies", .list [.int 1, .str (L "99")])]).1
    (L "dependencies") (by decide) [.int 1, .str (L "99")] (by decide) (by decide)

theorem alphaChars_facts :
    ∀ c ∈ alphaChars, c ≠ ':' ∧ c ≠ '#' ∧ c ≠ '-' ∧ c ≠ '+' ∧ c ≠ '[' ∧
      c ≠ Char.ofNat 123 ∧ c ≠ quoteChar ∧ c ≠ dquoteChar ∧
      c.isWhitespace = false ∧ c.isDigit = false ∧ c.isAlpha = true := by
  decide

theorem valChars_facts :
    ∀ c ∈ valChars, c ≠ ':' ∧ c ≠ '#' ∧ c.isWhitespace = false ∧
      c ≠ quoteChar ∧ c ≠ dquoteChar ∧
      (c.isAlphanum || c = '_' || c = '-' || c = '.' || c = '#' || c = '/') = true := by
  decide

theorem keyChars_facts :
    ∀ c ∈ keyChars, c ≠ ':' ∧ c ≠ '#' ∧ c.isWhitespace = false ∧
      c ≠ quoteChar ∧ c ≠ dquoteChar := by
  decide

theorem digitChars_facts :
    ∀ c ∈ L "0123456789", c.isDigit = true ∧ c.isWhitespace = false ∧
      c ≠ '#' ∧ c ≠ ':' ∧ c ≠ quoteChar ∧ c ≠ dquoteChar ∧ c ≠ '[' := by
  decide

theorem digitChar_mem_digits : ∀ d < 10, Nat.digitChar d ∈ L "0123456789" := by
  decide

theorem natRepr_mem_digits (n : Nat) : ∀ c ∈ natRepr n, c ∈ L "0123456789" := by
  intro c hc
  unfold natRepr at hc
  rcases List.mem_map.mp hc with ⟨d, hd, rfl⟩
  exact digitChar_mem_digits d (toDigitsRev_lt_ten _ _ d (List.mem_reverse.mp hd))

theorem natRepr_ne_nil (n : Nat) : natRepr n ≠ [] := by
  unfold natRepr toDigitsRev
  by_cases h : n < 10 <;> simp [h]

/-! ### Line-level helper lemmas for the round-trip -/

theorem splitAtFirst_keyline {k : Line} (hk : ∀ c ∈ k, c ≠ ':') (t : Line) :
    splitAtFirst ':' (k ++ ':' :: t) = some (k, t) := by
  induction k with
  | nil => simp [splitAtFirst]
  | cons c k' ih =>
    have hc : c ≠ ':' := hk c (by simp)
    simp only [List.cons_append, splitAtFirst, if_neg hc, List.append_eq]
    rw [ih (fun c' hc' => hk c' (by simp [hc']))]
    rfl

theorem noWs_dropWhile {l : Line} (h : ∀ c ∈ l, c.isWhitespace = false) :
    l.dropWhile Char.isWhitespace = l := by
  cases l with
  | nil => rfl
  | cons c rest => simp [List.dropWhile_cons, h c (by simp)]

theorem noWs_rstrip {l : Line} (h : ∀ c ∈ l, c.isWhitespace = false) :
    rstrip l = l := by
  rw [rstrip, noWs_dropWhile, List.reverse_reverse]
  intro c hc
  exact h c (List.mem_reverse.mp hc)

theorem noWs_pyTrim {l : Line} (h : ∀ c ∈ l, c.isWhitespace = false) :
    pyTrim l = l := by
  rw [pyTrim, noWs_rstrip h, lstrip, noWs_dropWhile h]

theorem head_not_ws_dropWhile {m : Line}
    (h : ∀ c, m.head? = some c → c.isWhitespace = false) :
    m.dropWhile Char.isWhitespace = m := by
  cases m with
  | nil => rfl
  | cons c rest => simp [List.dropWhile_cons, h c rfl]

theorem noWs_pyTrim_space {l : Line} (hne : l ≠ [])
    (h : ∀ c ∈ l, c.isWhitespace = false) : pyTrim (' ' :: l) = l := by
  have hr : rstrip (' ' :: l) = ' ' :: l := by
    rw [rstrip, show (' ' :: l).reverse = l.reverse ++ [' '] by simp]
    rw [head_not_ws_dropWhile ?hh]
    · simp
    case hh =>
      intro c hc
      cases hl : l.reverse with
      | nil => exact absurd (by simpa using hl) hne
      | cons d ds =>
        rw [hl] at hc
        simp only [List.cons_append, List.head?_cons, Option.some.injEq] at hc
        exact hc ▸ h d (List.mem_reverse.mp (by simp [hl]))
  rw [pyTrim, hr, lstrip]
  simp only [List.dropWhile_cons]
  rw [if_pos (by decide)]
  exact noWs_dropWhile h

theorem takeWhile_hash_append {l : Line} (h : ∀ c ∈ l, c ≠ '#') (t : Line) :
    (l ++ t).takeWhile (fun c => c ≠ '#') = l ++ t.takeWhile (fun c => c ≠ '#') := by
  induction l with
  | nil => rfl
  | cons c rest ih =>
    have hc : c ≠ '#' := h c (by simp)
    simp only [List.cons_append, List.takeWhile_cons]
    rw [if_pos (by simpa using hc), ih (fun c' hc' => h c' (by simp [hc']))]

theorem contains_eq_false_of_not_mem {l : Line} {a : Char} (h : a ∉ l) :
    l.contains a = false := by
  induction l with
  | nil => rfl
  | cons c rest ih =>
    have hca : ¬ (a == c) = true := by
      intro hh
      exact h (by simp [beq_iff_eq.mp hh])
    simp only [List.contains_cons, Bool.or_eq_false_iff]
    exact ⟨by simpa using hca, ih (fun hm => h (by simp [hm]))⟩

theorem isPrefixOf_cons_ne {a b : Char} (h : a ≠ b) (as bs : Line) :
    (a :: as).isPrefixOf (b :: bs) = false := by
  simp [List.isPrefixOf, h]

theorem not_infix_pair_append {a b : Char} {l : Line} (h : ∀ c ∈ l, c ≠ a) (t : Line) :
    isInfixOfL [a, b] (l ++ t) = isInfixOfL [a, b] t := by
  induction l with
  | nil => rfl
  | cons c rest ih =>
    simp only [List.cons_append, isInfixOfL, List.append_eq]
    rw [isPrefixOf_cons_ne (Ne.symm (h c (by simp))),
      ih (fun c' hc' => h c' (by simp [hc']))]
    rfl

theorem stripCommentLine_no_hash {l : Line} (h : ∀ c ∈ l, c ≠ '#') :
    stripCommentLine l = some l := by
  rw [stripCommentLine]
  have hhead : ((lstrip l).head? = some '#') = False := by
    simp only [eq_iff_iff, iff_false]
    intro hh
    have hmem : '#' ∈ lstrip l := by
      cases hl : lstrip l with
      | nil => simp [hl] at hh
      | cons c cs =>
        rw [hl] at hh
        simp at hh
        simp [hh]
    have : '#' ∈ l := (List.dropWhile_sublist _).mem hmem
    exact h '#' this rfl
  rw [if_neg (by simp [hhead])]
  rw [contains_eq_false_of_not_mem (fun hm => h '#' hm rfl)]
  simp

theorem contains_eq_true_of_mem {l : Line} {a : Char} (h : a ∈ l) :
    l.contains a = true := by
  induction l with
  | nil => simp at h
  | cons c rest ih =>
    rcases List.mem_cons.mp h with rfl | hm
    · simp [List.contains_cons]
    · simp only [List.contains_cons, ih hm, Bool.or_true]

theorem rstrip_append_space {l : Line} (hne : l ≠ [])
    (hlast : ∀ c, l.getLast? = some c → c.isWhitespace = false) :
    rstrip (l ++ [' ']) = l := by
  rw [rstrip, show (l ++ [' ']).reverse = ' ' :: l.reverse by simp]
  rw [List.dropWhile_cons, if_pos (by decide)]
  rw [head_not_ws_dropWhile ?hh]
  · simp
  case hh =>
    intro c hc
    apply hlast
    rw [← List.head?_reverse]
    exact hc

/-- Stripping the generated `id:` line comment restores the original line:
the first character is not whitespace or `#`, no `#` or quote occurs in the
line, and the line ends in a non-whitespace character. -/
theorem stripCommentLine_id_comment {l : Line} (hne : l ≠ [])
    (hhash : ∀ c ∈ l, c ≠ '#' ∧ c ≠ quoteChar ∧ c ≠ dquoteChar)
    (hhead : ∀ c, l.head? = some c → c.isWhitespace = false ∧ c ≠ '#')
    (hlast : ∀ c, l.getLast? = some c → c.isWhitespace = false) :
    stripCommentLine (l ++ idCommentSuffix) = some l := by
  obtain ⟨c0, rest, rfl⟩ : ∃ c0 rest, l = c0 :: rest := by
    cases l with
    | nil => exact absurd rfl hne
    | cons a r => exact ⟨a, r, rfl⟩
  have hc0 := hhead c0 rfl
  rw [stripCommentLine]
  rw [if_neg ?hnothash]
  case hnothash =>
    intro hcontra
    rw [show ((c0 :: rest) ++ idCommentSuffix) = c0 :: (rest ++ idCommentSuffix) by simp,
      lstrip, List.dropWhile_cons, if_neg (by simp [hc0.1])] at hcontra
    simp at hcontra
    exact hc0.2 hcontra
  rw [if_pos ?hcontains]
  case hcontains =>
    apply contains_eq_true_of_mem
    apply List.mem_append_right
    decide
  rw [if_neg ?hinf]
  case hinf =>
    rw [not_infix_pair_append (fun c hc => (hhash c hc).2.2),
      not_infix_pair_append (fun c hc => (hhash c hc).2.1)]
    decide
  rw [takeWhile_hash_append (fun c hc => (hhash c hc).1)]
  rw [show idCommentSuffix.takeWhile (fun c => c ≠ '#') = [' '] from rfl]
  rw [rstrip_append_space hne hlast]

/-! ### Dumped-scalar facts -/

theorem plainStrOk_parts {s : Line} (h : plainStrOk s = true) :
    (∃ c rest, s = c :: rest ∧ c ∈ alphaChars) ∧ (∀ ch ∈ s, ch ∈ valChars) ∧
      s ∉ reservedToks := by
  cases s with
  | nil => simp [plainStrOk] at h
  | cons c rest =>
    simp only [plainStrOk, Bool.and_eq_true, List.all_eq_true, decide_eq_true_eq,
      Bool.not_eq_true', decide_eq_false_iff_not] at h
    exact ⟨⟨c, rest, rfl, h.1.1⟩, h.1.2, h.2⟩

theorem plainStrOk_emitPlain {s : Line} (h : plainStrOk s = true) : emitPlain s = true := by
  obtain ⟨⟨c, rest, rfl, hc⟩, hall, hres⟩ := plainStrOk_parts h
  have hnotmem : ∀ toks : List Line, (∀ x ∈ toks, x ∈ reservedToks) →
      ((c :: rest) ∈ toks → False) := by
    intro toks hsub hmem
    exact hres (hsub _ hmem)
  simp only [emitPlain, Bool.and_eq_true, List.all_eq_true, Bool.not_eq_true',
    decide_eq_false_iff_not]
  refine ⟨⟨⟨⟨(alphaChars_facts c hc).2.2.2.2.2.2.2.2.2.2, ?_⟩, ?_⟩, ?_⟩, ?_⟩
  · intro ch hch
    exact (valChars_facts ch (hall ch hch)).2.2.2.2.2
  · exact hnotmem boolTrueToks (by intro x hx; simp [reservedToks, hx])
  · exact hnotmem boolFalseToks (by intro x hx; simp [reservedToks, hx])
  · exact hnotmem nullToks (by intro x hx; simp [reservedToks, hx])

theorem intRepr_chars (i : Int) : ∀ c ∈ intRepr i, c ∈ '-' :: L "0123456789" := by
  intro c hc
  rw [intRepr] at hc
  by_cases hi : i < 0
  · rw [if_pos hi] at hc
    rcases List.mem_cons.mp hc with rfl | hm
    · simp
    · exact List.mem_cons_of_mem _ (natRepr_mem_digits _ c hm)
  · rw [if_neg hi] at hc
    exact List.mem_cons_of_mem _ (natRepr_mem_digits _ c hc)

theorem dumpScalar_ne_nil {s : YScalar} (h : wfScalar s = true) : dumpScalar s ≠ [] := by
  cases s with
  | str v =>
    rw [dumpScalar, if_pos (plainStrOk_emitPlain h)]
    obtain ⟨⟨c, rest, rfl, _⟩, _, _⟩ := plainStrOk_parts h
    simp
  | int n =>
    rw [dumpScalar, intRepr]
    by_cases hn : n < 0
    · simp [hn]
    · simp [hn, natRepr_ne_nil]
  | bool b => cases b <;> simp [dumpScalar, L]
  | null => simp [dumpScalar, L]

theorem dumpScalar_chars {s : YScalar} (h : wfScalar s = true) :
    ∀ c ∈ dumpScalar s, c ≠ '#' ∧ c ≠ quoteChar ∧ c ≠ dquoteChar ∧
      c.isWhitespace = false := by
  intro c hc
  cases s with
  | str v =>
    rw [dumpScalar, if_pos (plainStrOk_emitPlain h)] at hc
    obtain ⟨_, hall, _⟩ := plainStrOk_parts h
    have := valChars_facts c (hall c hc)
    exact ⟨this.2.1, this.2.2.2.1, this.2.2.2.2.1, this.2.2.1⟩
  | int n =>
    rw [dumpScalar] at hc
    rcases List.mem_cons.mp (intRepr_chars n c hc) with rfl | hm
    · refine ⟨by decide, by decide, by decide, by decide⟩
    · have := digitChars_facts c hm
      exact ⟨this.2.2.1, this.2.2.2.2.1, this.2.2.2.2.2.1, this.2.1⟩
  | bool b =>
    cases b <;> rw [dumpScalar] at hc
    · revert c
      decide
    · revert c
      decide
  | null =>
    rw [dumpScalar] at hc
    revert c
    decide

theorem isIntTok_default {c : Char} (h1 : c ≠ '-') (h2 : c ≠ '+') (rest : Line) :
    isIntTok (c :: rest) = (c :: rest).all Char.isDigit := by
  rw [isIntTok.eq_def]
  split
  · rename_i heq
    exact absurd (List.head_eq_of_cons_eq heq.symm) (Ne.symm h1)
  · rename_i heq
    exact absurd (List.head_eq_of_cons_eq heq.symm) (Ne.symm h2)
  · simp

theorem isIntTok_natRepr (n : Nat) : isIntTok (natRepr n) = true := by
  obtain ⟨c, rest, hrepr⟩ : ∃ c rest, natRepr n = c :: rest := by
    cases hr : natRepr n with
    | nil => exact absurd hr (natRepr_ne_nil n)
    | cons a r => exact ⟨a, r, rfl⟩
  have hdigits := natRepr_mem_digits n
  rw [hrepr] at hdigits ⊢
  have hc := digitChars_facts c (hdigits c (by simp))
  rw [isIntTok_default (by rintro rfl; revert hc; decide) (by rintro rfl; revert hc; decide)]
  rw [List.all_eq_true]
  intro x hx
  exact (digitChars_facts x (hdigits x hx)).1

theorem foldl_digitVal (ds : List Nat) (hds : ∀ d ∈ ds, d < 10) :
    ∀ a, List.foldl (fun a c => 10 * a + (c.toNat - 48)) a (ds.map Nat.digitChar) =
      List.foldl (fun a d => 10 * a + d) a ds := by
  induction ds with
  | nil => intro a; rfl
  | cons d rest ih =>
    intro a
    simp only [List.map_cons, List.foldl_cons]
    have hv : (Nat.digitChar d).toNat - 48 = d := by
      have : d < 10 := hds d (by simp)
      interval_cases d <;> decide
    rw [hv]
    exact ih (fun d' hd' => hds d' (by simp [hd'])) _

theorem foldr_digit_comm (ds : List Nat) :
    List.foldr (fun d a => 10 * a + d) 0 ds = List.foldr (fun d a => d + 10 * a) 0 ds := by
  induction ds with
  | nil => rfl
  | cons d rest ih => simp only [List.foldr_cons, ih]; omega

theorem digitsToNat_natRepr (n : Nat) : digitsToNat (natRepr n) = n := by
  rw [digitsToNat, natRepr]
  rw [show ((toDigitsRev (n + 1) n).reverse.map Nat.digitChar) =
    ((toDigitsRev (n + 1) n).reverse).map Nat.digitChar from rfl]
  rw [foldl_digitVal _ (fun d hd => toDigitsRev_lt_ten _ _ d (List.mem_reverse.mp hd))]
  rw [List.foldl_reverse]
  have := foldr_digit_comm (toDigitsRev (n + 1) n)
  simp only [this]
  have h2 := ofDigitsRev_toDigitsRev (n + 1) n (by omega)
  rw [ofDigitsRev] at h2
  exact h2

theorem parseIntTok_intRepr (i : Int) : parseIntTok (intRepr i) = i := by
  rw [intRepr]
  by_cases hi : i < 0
  · rw [if_pos hi, parseIntTok, digitsToNat_natRepr]
    omega
  · rw [if_neg hi]
    obtain ⟨c, rest, hrepr⟩ : ∃ c rest, natRepr i.toNat = c :: rest := by
      cases hr : natRepr i.toNat with
      | nil => exact absurd hr (natRepr_ne_nil _)
      | cons a r => exact ⟨a, r, rfl⟩
    have hc := digitChars_facts c (natRepr_mem_digits i.toNat c (by rw [hrepr]; simp))
    rw [hrepr, parseIntTok.eq_def]
    split
    · rename_i heq
      exact absurd (List.head_eq_of_cons_eq heq.symm).symm (by rintro rfl; revert hc; decide)
    · rename_i heq
      exact absurd (List.head_eq_of_cons_eq heq.symm).symm (by rintro rfl; revert hc; decide)
    · rw [← hrepr, digitsToNat_natRepr]
      omega

theorem isIntTok_intRepr (i : Int) : isIntTok (intRepr i) = true := by
  rw [intRepr]
  by_cases hi : i < 0
  · rw [if_pos hi, isIntTok]
    simp only [Bool.and_eq_true, List.all_eq_true, decide_eq_true_eq]
    refine ⟨by simpa using natRepr_ne_nil i.natAbs, ?_⟩
    intro x hx
    exact (digitChars_facts x (natRepr_mem_digits _ x hx)).1
  · rw [if_neg hi]
    exact isIntTok_natRepr _

theorem cons_ne_of_head_ne {c d : Char} (h : c ≠ d) (r t : Line) : c :: r ≠ d :: t := by
  intro heq
  exact h (List.head_eq_of_cons_eq heq)

theorem parseScalarTok_plainStr {v : Line} (h : plainStrOk v = true) :
    parseScalarTok v = .str v := by
  obtain ⟨⟨c, rest, rfl, hc⟩, hall, hres⟩ := plainStrOk_parts h
  have hfacts := alphaChars_facts c hc
  rw [parseScalarTok]
  rw [if_neg ?hint]
  case hint =>
    rw [isIntTok_default hfacts.2.2.1 hfacts.2.2.2.1]
    simp only [List.all_eq_true, not_forall]
    exact ⟨c, by simp, by simp [hfacts.2.2.2.2.2.2.2.2.2.1]⟩
  rw [if_neg (fun hm => hres (by simp [reservedToks, hm]))]
  rw [if_neg (fun hm => hres (by simp [reservedToks, hm]))]
  rw [if_neg (fun hm => hres (by simp [reservedToks, hm]))]
  rw [if_neg ?hq1]
  case hq1 =>
    intro hcontra
    exact hfacts.2.2.2.2.2.2.1 hcontra.1
  rw [if_neg ?hq2]
  case hq2 =>
    intro hcontra
    exact hfacts.2.2.2.2.2.2.2.1 hcontra.1

theorem parseValueTok_dumpScalar {s : YScalar} (h : wfScalar s = true) :
    parseValueTok (dumpScalar s) = .scalar s := by
  cases s with
  | str v =>
    rw [dumpScalar, if_pos (plainStrOk_emitPlain h)]
    obtain ⟨⟨c, rest, rfl, hc⟩, _, _⟩ := plainStrOk_parts h
    rw [parseValueTok, if_neg ?hbr,
      parseScalarTok_plainStr (show plainStrOk (c :: rest) = true from h)]
    case hbr =>
      rw [show L "[]" = '[' :: [']'] from rfl]
      exact cons_ne_of_head_ne (alphaChars_facts c hc).2.2.2.2.1 rest _
  | int n =>
    have hne : dumpScalar (.int n) ≠ L "[]" := by
      rw [dumpScalar]
      obtain ⟨c, rest, hrepr⟩ : ∃ c rest, intRepr n = c :: rest := by
        cases hr : intRepr n with
        | nil =>
          rw [intRepr] at hr
          by_cases hn : n < 0
          · simp [hn] at hr
          · rw [if_neg hn] at hr
            exact absurd hr (natRepr_ne_nil _)
        | cons a r => exact ⟨a, r, rfl⟩
      rw [hrepr]
      have hc := intRepr_chars n c (by rw [hrepr]; simp)
      rcases List.mem_cons.mp hc with rfl | hm
      · exact cons_ne_of_head_ne (by decide) _ _
      · exact cons_ne_of_head_ne (digitChars_facts c hm).2.2.2.2.2.2 _ _
    rw [parseValueTok, if_neg (by simpa [dumpScalar] using hne)]
    rw [show dumpScalar (.int n) = intRepr n from rfl] at hne ⊢
    rw [parseScalarTok.eq_def, if_pos (isIntTok_intRepr n), parseIntTok_intRepr]
  | bool b => cases b <;> decide
  | null => decide

theorem parseScalarTok_dumpScalar {s : YScalar} (h : wfScalar s = true) :
    parseScalarTok (dumpScalar s) = s := by
  cases s with
  | str v =>
    rw [dumpScalar, if_pos (plainStrOk_emitPlain h)]
    exact parseScalarTok_plainStr h
  | int n =>
    rw [show dumpScalar (.int n) = intRepr n from rfl]
    rw [parseScalarTok.eq_def, if_pos (isIntTok_intRepr n), parseIntTok_intRepr]
  | bool b => cases b <;> decide
  | null => decide

theorem keyword_prefix_iff {k w : Line} (hk : ∀ c ∈ k, c ≠ ':')
    (hw : ∀ c ∈ w, c ≠ ':') (t : Line) :
    ((w ++ [':']).isPrefixOf (k ++ ':' :: t) = true) ↔ w = k := by
  induction w generalizing k with
  | nil =>
    cases k with
    | nil => simp [List.isPrefixOf]
    | cons c k' =>
      simp only [List.nil_append, List.cons_append, List.isPrefixOf, Bool.and_eq_true,
        beq_iff_eq]
      constructor
      · intro hcontra
        exact absurd hcontra.1.symm (hk c (by simp))
      · intro hcontra
        exact absurd hcontra (by simp)
  | cons a w' ih =>
    cases k with
    | nil =>
      simp only [List.nil_append, List.cons_append, List.isPrefixOf, Bool.and_eq_true,
        beq_iff_eq]
      constructor
      · intro hcontra
        exact absurd hcontra.1 (hw a (by simp))
      · intro hcontra
        exact absurd hcontra (by simp)
    | cons c k' =>
      simp only [List.cons_append, List.isPrefixOf, Bool.and_eq_true, beq_iff_eq]
      constructor
      · intro hpre
        have := (ih (fun x hx => hk x (by simp [hx]))
          (fun x hx => hw x (by simp [hx]))).mp hpre.2
        rw [hpre.1, this]
      · intro heq
        have h1 : a = c := List.head_eq_of_cons_eq heq
        have h2 : w' = k' := List.tail_eq_of_cons_eq heq
        exact ⟨h1, (ih (fun x hx => hk x (by simp [hx]))
          (fun x hx => hw x (by simp [hx]))).mpr h2⟩

theorem plainKeyOk_parts {k : Line} (h : plainKeyOk k = true) :
    (∃ c r, k = c :: r ∧ c ∈ alphaChars) ∧ ∀ c ∈ k, c ∈ keyChars := by
  cases k with
  | nil => simp [plainKeyOk] at h
  | cons c rest =>
    simp only [plainKeyOk, Bool.and_eq_true, List.all_eq_true, decide_eq_true_eq] at h
    exact ⟨⟨c, rest, rfl, h.1⟩, h.2⟩

theorem plainKeyOk_noColon {k : Line} (h : plainKeyOk k = true) : ∀ c ∈ k, c ≠ ':' :=
  fun c hc => (keyChars_facts c ((plainKeyOk_parts h).2 c hc)).1

theorem addBannersAux_keyline (sec : Line) {k : Line} (hcol : ∀ c ∈ k, c ≠ ':')
    (t : Line) (ls : List Line) :
    addBannersAux sec ((k ++ ':' :: t) :: ls) =
      bannerOut sec k ++ keyLineOut k (k ++ ':' :: t) :: addBannersAux (secAfter sec k) ls := by
  have htest : ∀ w : Line, (∀ c ∈ w, c ≠ ':') →
      ((w ++ [':']).isPrefixOf (k ++ ':' :: t) = true ↔ w = k) :=
    fun w hw => keyword_prefix_iff hcol hw t
  rw [addBannersAux]
  by_cases h1 : k = L "id"
  · rw [if_pos (by
      rw [show L "id:" = L "id" ++ [':'] from rfl]
      exact (htest _ (by decide)).mpr h1.symm)]
    simp [keyLineOut, bannerOut, secAfter, h1]
  rw [if_neg (by
    rw [show L "id:" = L "id" ++ [':'] from rfl]
    exact fun hp => h1 ((htest _ (by decide)).mp hp).symm)]
  by_cases h2 : k = L "parent"
  · rw [if_pos (by
      rw [show L "parent:" = L "parent" ++ [':'] from rfl]
      exact (htest _ (by decide)).mpr h2.symm)]
    simp [keyLineOut, bannerOut, secAfter, h2, (show ¬ (L "parent" = L "id") by decide)]
  rw [if_neg (by
    rw [show L "parent:" = L "parent" ++ [':'] from rfl]
    exact fun hp => h2 ((htest _ (by decide)).mp hp).symm)]
  by_cases h3 : k = L "status"
  · rw [if_pos (by
      rw [show L "status:" = L "status" ++ [':'] from rfl]
      exact (htest _ (by decide)).mpr h3.symm)]
    simp [keyLineOut, bannerOut, secAfter, h3, (show ¬ (L "status" = L "id") by decide), (show ¬ (L "status" = L "parent") by decide)]
  rw [if_neg (by
    rw [show L "status:" = L "status" ++ [':'] from rfl]
    exact fun hp => h3 ((htest _ (by decide)).mp hp).symm)]
  by_cases h4 : k = L "created"
  · rw [if_pos (by
      rw [show L "created:" = L "created" ++ [':'] from rfl]
      exact (htest _ (by decide)).mpr h4.symm)]
    simp [keyLineOut, bannerOut, secAfter, h4, (show ¬ (L "created" = L "id") by decide), (show ¬ (L "created" = L "parent") by decide), (show ¬ (L "created" = L "status") by decide)]
  rw [if_neg (by
    rw [show L "created:" = L "created" ++ [':'] from rfl]
    exact fun hp => h4 ((htest _ (by decide)).mp hp).symm)]
  by_cases h5 : k = L "dependencies"
  · rw [if_pos (by
      rw [show L "dependencies:" = L "dependencies" ++ [':'] from rfl]
      exact (htest _ (by decide)).mpr h5.symm)]
    simp [keyLineOut, bannerOut, secAfter, h5, (show ¬ (L "dependencies" = L "id") by decide), (show ¬ (L "dependencies" = L "parent") by decide), (show ¬ (L "dependencies" = L "status") by decide), (show ¬ (L "dependencies" = L "created") by decide)]
  rw [if_neg (by
    rw [show L "dependencies:" = L "dependencies" ++ [':'] from rfl]
    exact fun hp => h5 ((htest _ (by decide)).mp hp).symm)]
  by_cases h6 : k = L "pull_requests"
  · rw [if_pos (by
      rw [show L "pull_requests:" = L "pull_requests" ++ [':'] from rfl]
      exact (htest _ (by decide)).mpr h6.symm)]
    simp [keyLineOut, bannerOut, secAfter, h6, (show ¬ (L "pull_requests" = L "id") by decide), (show ¬ (L "pull_requests" = L "parent") by decide), (show ¬ (L "pull_requests" = L "status") by decide), (show ¬ (L "pull_requests" = L "created") by decide), (show ¬ (L "pull_requests" = L "dependencies") by decide)]
  rw [if_neg (by
    rw [show L "pull_requests:" = L "pull_requests" ++ [':'] from rfl]
    exact fun hp => h6 ((htest _ (by decide)).mp hp).symm)]
  by_cases h7 : k = L "tags"
  · rw [if_pos (by
      rw [show L "tags:" = L "tags" ++ [':'] from rfl]
      exact (htest _ (by decide)).mpr h7.symm)]
    simp [keyLineOut, bannerOut, secAfter, h7, (show ¬ (L "tags" = L "id") by decide), (show ¬ (L "tags" = L "parent") by decide), (show ¬ (L "tags" = L "status") by decide), (show ¬ (L "tags" = L "created") by decide), (show ¬ (L "tags" = L "dependencies") by decide), (show ¬ (L "tags" = L "pull_requests") by decide)]
  rw [if_neg (by
    rw [show L "tags:" = L "tags" ++ [':'] from rfl]
    exact fun hp => h7 ((htest _ (by decide)).mp hp).symm)]
  simp [keyLineOut, bannerOut, secAfter, h1, h2, h3, h4, h5, h6, h7]

theorem mem_dropWhile_of_neg {c : Char} {p : Char → Bool} :
    ∀ {l : Line}, c ∈ l → p c = false → c ∈ l.dropWhile p := by
  intro l
  induction l with
  | nil => intro h _; simp at h
  | cons x rest ih =>
    intro h hc
    rw [List.dropWhile_cons]
    by_cases hx : p x = true
    · rw [if_pos hx]
      rcases List.mem_cons.mp h with rfl | hm
      · rw [hc] at hx; exact absurd hx (by simp)
      · exact ih hm hc
    · rw [if_neg hx]
      exact h

theorem dropWhile_nil_all {p : Char → Bool} :
    ∀ {l : Line}, l.dropWhile p = [] → ∀ x ∈ l, p x = true := by
  intro l
  induction l with
  | nil => intro _ x hx; simp at hx
  | cons a rest ih =>
    intro h x hx
    rw [List.dropWhile_cons] at h
    by_cases ha : p a = true
    · rw [if_pos ha] at h
      rcases List.mem_cons.mp hx with rfl | hm
      · exact ha
      · exact ih h x hm
    · rw [if_neg ha] at h
      simp at h

theorem isBlankL_false_of_mem {c : Char} {l : Line} (hc : c ∈ l)
    (hws : c.isWhitespace = false) : isBlankL l = false := by
  rw [isBlankL]
  simp only [decide_eq_false_iff_not]
  intro htrim
  have hcr : c ∈ rstrip l := by
    rw [rstrip]
    rw [List.mem_reverse]
    exact mem_dropWhile_of_neg (List.mem_reverse.mpr hc) hws
  rw [pyTrim, lstrip] at htrim
  have := dropWhile_nil_all htrim c hcr
  rw [hws] at this
  exact absurd this (by simp)

theorem assocSetVal_fresh {k : Line} {acc : Metadata} (h : hasKey k acc = false)
    (v : YValue) : assocSetVal k v acc = acc ++ [(k, v)] := by
  induction acc with
  | nil => rfl
  | cons e rest ih =>
    rw [hasKey, lookupMeta] at h
    by_cases hk : k = e.1
    · rw [if_pos hk] at h
      simp at h
    · rw [if_neg hk] at h
      rw [assocSetVal.eq_def]
      cases e with
      | mk a b =>
        simp only at hk ⊢
        rw [if_neg hk, ih h]
        rfl

theorem lookupMeta_append (k : Line) (l₁ l₂ : Metadata) :
    lookupMeta k (l₁ ++ l₂) =
      match lookupMeta k l₁ with
      | some v => some v
      | none => lookupMeta k l₂ := by
  induction l₁ with
  | nil => simp [lookupMeta]
  | cons p rest ih =>
    by_cases h : k = p.1
    · simp [lookupMeta, h]
    · simp only [List.cons_append, lookupMeta, if_neg h]
      exact ih

theorem hasKey_append_fresh {x k : Line} {acc : Metadata} (h : hasKey x acc = false)
    (hne : x ≠ k) (v : YValue) : hasKey x (acc ++ [(k, v)]) = false := by
  rw [hasKey, lookupMeta_append]
  rw [hasKey] at h
  cases hl : lookupMeta x acc with
  | some w => rw [hl] at h; simp at h
  | none => simp [lookupMeta, hne]

theorem parseYamlAux_blank (acc : Metadata) (f : Nat) (ls : List Line) :
    parseYamlAux acc (f + 1) ([] :: ls) = parseYamlAux acc f ls := by
  rw [parseYamlAux]
  rw [if_pos (by decide)]

theorem stripCommentLine_hashHead (r : Line) : stripCommentLine ('#' :: r) = none := by
  rw [stripCommentLine]
  rw [if_pos ?hh]
  case hh =>
    rw [lstrip, List.dropWhile_cons, if_neg (by decide)]
    rfl

theorem stripComments_sectionHeader (name : Line) :
    stripComments (sectionHeaderFor name) = [[]] := by
  rw [sectionHeaderFor, stripComments, List.filterMap]
  rw [show stripCommentLine ([] : Line) = some [] from rfl]
  rw [show L "# === " ++ name ++ L " ===" = '#' :: (L " === " ++ name ++ L " ===") by simp [L]]
  simp [stripCommentLine_hashHead]

theorem stripComments_bannerOut (sec k : Line) :
    stripComments (bannerOut sec k) = [] ∨ stripComments (bannerOut sec k) = [[]] := by
  rw [bannerOut]
  split_ifs <;>
    first
      | exact Or.inl rfl
      | exact Or.inr (stripComments_sectionHeader _)

theorem addBannersAux_nontrigger (sec : Line) {l : Line}
    (h1 : (L "id:").isPrefixOf l = false)
    (h2 : (L "parent:").isPrefixOf l = false)
    (h3 : (L "status:").isPrefixOf l = false)
    (h4 : (L "created:").isPrefixOf l = false)
    (h5 : (L "dependencies:").isPrefixOf l = false)
    (h6 : (L "pull_requests:").isPrefixOf l = false)
    (h7 : (L "tags:").isPrefixOf l = false) (ls : List Line) :
    addBannersAux sec (l :: ls) = l :: addBannersAux sec ls := by
  rw [addBannersAux, if_neg (by simp [h1]), if_neg (by simp [h2]), if_neg (by simp [h3]),
    if_neg (by simp [h4]), if_neg (by simp [h5]), if_neg (by simp [h6]),
    if_neg (by simp [h7])]

theorem addBannersAux_blank (sec : Line) (ls : List Line) :
    addBannersAux sec ([] :: ls) = [] :: addBannersAux sec ls :=
  @addBannersAux_nontrigger sec [] rfl rfl rfl rfl rfl rfl rfl ls

theorem addBannersAux_item (sec : Line) (d : Line) (ls : List Line) :
    addBannersAux sec (('-' :: ' ' :: d) :: ls) = ('-' :: ' ' :: d) :: addBannersAux sec ls := by
  apply addBannersAux_nontrigger
  · rw [show L "id:" = 'i' :: L "d:" from rfl]
    exact isPrefixOf_cons_ne (by decide) _ _
  · rw [show L "parent:" = 'p' :: L "arent:" from rfl]
    exact isPrefixOf_cons_ne (by decide) _ _
  · rw [show L "status:" = 's' :: L "tatus:" from rfl]
    exact isPrefixOf_cons_ne (by decide) _ _
  · rw [show L "created:" = 'c' :: L "reated:" from rfl]
    exact isPrefixOf_cons_ne (by decide) _ _
  · rw [show L "dependencies:" = 'd' :: L "ependencies:" from rfl]
    exact isPrefixOf_cons_ne (by decide) _ _
  · rw [show L "pull_requests:" = 'p' :: L "ull_requests:" from rfl]
    exact isPrefixOf_cons_ne (by decide) _ _
  · rw [show L "tags:" = 't' :: L "ags:" from rfl]
    exact isPrefixOf_cons_ne (by decide) _ _

theorem addBannersAux_items (sec : Line) (ds : List Line) (ls : List Line) :
    addBannersAux sec (ds.map (fun d => '-' :: ' ' :: d) ++ ls) =
      ds.map (fun d => '-' :: ' ' :: d) ++ addBannersAux sec ls := by
  induction ds with
  | nil => rfl
  | cons d rest ih =>
    simp only [List.map_cons, List.cons_append]
    rw [addBannersAux_item, ih]

theorem takeListItems_noItem {R : List Line} (h : noItemAhead R = true) :
    takeListItems R = ([], R) := by
  induction R with
  | nil => rfl
  | cons l r ih =>
    rw [noItemAhead] at h
    by_cases hb : isBlankL l = true
    · rw [if_pos hb] at h
      have hnp : (L "- ").isPrefixOf l = false := by
        cases hp : (L "- ").isPrefixOf l
        · rfl
        · exfalso
          have hdash : '-' ∈ l := by
            cases l with
            | nil => simp [List.isPrefixOf, L] at hp
            | cons c cs =>
              rw [show L "- " = '-' :: [' '] from rfl] at hp
              simp only [List.isPrefixOf, Bool.and_eq_true, beq_iff_eq] at hp
              rw [← hp.1]
              simp
          rw [isBlankL_false_of_mem hdash (by decide)] at hb
          simp at hb
      rw [takeListItems, if_neg (by simp [hnp]), if_pos hb, ih h]
      simp
    · rw [if_neg hb] at h
      have hf : (L "- ").isPrefixOf l = false := by
        rw [Bool.not_eq_true'] at h
        exact h
      rw [takeListItems, if_neg (by simp [hf]), if_neg hb]

theorem takeListItems_items {xs : List YScalar} (hwf : ∀ x ∈ xs, wfScalar x = true)
    {R : List Line} (hR : noItemAhead R = true) :
    takeListItems (xs.map (fun x => '-' :: ' ' :: dumpScalar x) ++ R) = (xs, R) := by
  induction xs with
  | nil => exact takeListItems_noItem hR
  | cons x rest ih =>
    simp only [List.map_cons, List.cons_append]
    rw [takeListItems]
    rw [if_pos (by rw [show L "- " = '-' :: [' '] from rfl]; simp [List.isPrefixOf])]
    rw [ih (fun y hy => hwf y (by simp [hy]))]
    have hx := hwf x (by simp)
    rw [show ('-' :: ' ' :: dumpScalar x).drop 2 = dumpScalar x from rfl]
    rw [noWs_pyTrim (fun c hc => (dumpScalar_chars hx c hc).2.2.2)]
    rw [parseScalarTok_dumpScalar hx]

theorem yamlDump_ne_nil {m : Metadata} (h : m ≠ []) : yamlDump m = fieldsDump m := by
  cases m with
  | nil => exact absurd rfl h
  | cons p t => rfl

theorem dumpFieldLines_shape (k : Line) (v : YValue) :
    dumpFieldLines k v = (k ++ ':' :: vtailOf v) :: itemsOf v := by
  cases v with
  | scalar s => simp [dumpFieldLines, vtailOf, itemsOf, L]
  | list xs =>
    cases xs with
    | nil => simp [dumpFieldLines, vtailOf, itemsOf, L]
    | cons x rest =>
      simp only [dumpFieldLines, vtailOf, itemsOf]
      simp [L]

theorem vtail_chars {v : YValue} (h : wfValue v = true) :
    ∀ c ∈ vtailOf v, c ≠ '#' ∧ c ≠ quoteChar ∧ c ≠ dquoteChar := by
  intro c hc
  cases v with
  | scalar s =>
    rw [vtailOf] at hc
    rcases List.mem_cons.mp hc with rfl | hm
    · exact ⟨by decide, by decide, by decide⟩
    · have := dumpScalar_chars h c hm
      exact ⟨this.1, this.2.1, this.2.2.1⟩
  | list xs =>
    cases xs with
    | nil =>
      rw [vtailOf] at hc
      revert c
      decide
    | cons x rest => simp [vtailOf] at hc

theorem keyline_chars {k : Line} (hk : plainKeyOk k = true) {v : YValue}
    (hv : wfValue v = true) :
    ∀ c ∈ k ++ ':' :: vtailOf v, c ≠ '#' ∧ c ≠ quoteChar ∧ c ≠ dquoteChar := by
  intro c hc
  rcases List.mem_append.mp hc with hm | hm
  · have := keyChars_facts c ((plainKeyOk_parts hk).2 c hm)
    exact ⟨this.2.1, this.2.2.2.1, this.2.2.2.2⟩
  · rcases List.mem_cons.mp hm with rfl | hm2
    · exact ⟨by decide, by decide, by decide⟩
    · exact vtail_chars hv c hm2

theorem keyline_getLast {k : Line} {v : YValue} (hv : wfValue v = true) :
    ∀ c, (k ++ ':' :: vtailOf v).getLast? = some c → c.isWhitespace = false := by
  intro c hc
  rw [List.getLast?_append_of_ne_nil _ (by simp)] at hc
  cases v with
  | scalar s =>
    rw [vtailOf] at hc
    have hne := dumpScalar_ne_nil hv
    rw [show (':' :: ' ' :: dumpScalar s) = [':', ' '] ++ dumpScalar s from rfl,
      List.getLast?_append_of_ne_nil _ hne] at hc
    exact (dumpScalar_chars hv c (List.mem_of_mem_getLast? hc)).2.2.2
  | list xs =>
    cases xs with
    | nil =>
      rw [vtailOf] at hc
      have heq : (':' :: ' ' :: '[' :: ']' :: ([] : Line)).getLast? = some ']' := by decide
      rw [heq] at hc
      have hcc : c = ']' := by
        injection hc with h1
        exact h1.symm
      rw [hcc]
      decide
    | cons x rest =>
      rw [vtailOf] at hc
      have heq : (':' :: ([] : Line)).getLast? = some ':' := by decide
      rw [heq] at hc
      have hcc : c = ':' := by
        injection hc with h1
        exact h1.symm
      rw [hcc]
      decide

theorem strip_keyline {k : Line} (hk : plainKeyOk k = true) {v : YValue}
    (hv : wfValue v = true) :
    stripCommentLine (keyLineOut k (k ++ ':' :: vtailOf v)) = some (k ++ ':' :: vtailOf v) := by
  rw [keyLineOut]
  by_cases hid : k = L "id"
  · rw [if_pos hid]
    obtain ⟨⟨c, r, hcons, hcmem⟩, _⟩ := plainKeyOk_parts hk
    apply stripCommentLine_id_comment
    · simp [hcons]
    · exact keyline_chars hk hv
    · intro c' hc'
      rw [hcons] at hc'
      simp only [List.cons_append, List.head?_cons, Option.some.injEq] at hc'
      have hf := alphaChars_facts c hcmem
      exact hc' ▸ ⟨hf.2.2.2.2.2.2.2.2.1, hf.2.1⟩
    · exact keyline_getLast hv
  · rw [if_neg hid]
    exact stripCommentLine_no_hash (fun c hc => (keyline_chars hk hv c hc).1)

theorem stripComments_items (v : YValue) (hv : wfValue v = true) :
    stripComments (itemsOf v) = itemsOf v := by
  cases v with
  | scalar s => rfl
  | list xs =>
    cases xs with
    | nil => rfl
    | cons x rest =>
      rw [itemsOf]
      have hall : ∀ y ∈ x :: rest, wfScalar y = true := by
        rw [wfValue] at hv
        exact fun y hy => (List.all_eq_true.mp hv) y hy
      generalize hxs : x :: rest = ys at hall
      clear hxs
      induction ys with
      | nil => rfl
      | cons y ys ih =>
        simp only [List.map_cons, stripComments, List.filterMap_cons]
        rw [stripCommentLine_no_hash ?hnh]
        case hnh =>
          intro c hc
          rcases List.mem_cons.mp hc with rfl | hc2
          · decide
          · rcases List.mem_cons.mp hc2 with rfl | hc3
            · decide
            · exact (dumpScalar_chars (hall y (by simp)) c hc3).1
        have := ih (fun z hz => hall z (by simp [hz]))
        simp only [stripComments] at this
        rw [this]

theorem cleaned_nil (sec : Line) :
    stripComments (addBannersAux sec (fieldsDump [] ++ [[]])) = [[]] := by
  rw [show fieldsDump [] ++ [[]] = [[]] from rfl, addBannersAux_blank]
  rfl

theorem cleaned_cons (k : Line) (v : YValue) (t : Metadata) (sec : Line)
    (hk : plainKeyOk k = true) (hv : wfValue v = true) :
    stripComments (addBannersAux sec (fieldsDump ((k, v) :: t) ++ [[]])) =
      stripComments (bannerOut sec k) ++ (k ++ ':' :: vtailOf v) ::
        (itemsOf v ++ stripComments (addBannersAux (secAfter sec k) (fieldsDump t ++ [[]]))) := by
  have hstream : fieldsDump ((k, v) :: t) ++ [[]] =
      (k ++ ':' :: vtailOf v) :: (itemsOf v ++ (fieldsDump t ++ [[]])) := by
    rw [show fieldsDump ((k, v) :: t) = dumpFieldLines k v ++ fieldsDump t by
      simp [fieldsDump]]
    rw [dumpFieldLines_shape]
    simp
  rw [hstream]
  rw [addBannersAux_keyline sec (plainKeyOk_noColon hk)]
  have hitems : addBannersAux (secAfter sec k) (itemsOf v ++ (fieldsDump t ++ [[]])) =
      itemsOf v ++ addBannersAux (secAfter sec k) (fieldsDump t ++ [[]]) := by
    cases v with
    | scalar s => rfl
    | list xs =>
      cases xs with
      | nil => rfl
      | cons x rest =>
        rw [itemsOf]
        rw [show (List.map (fun y => '-' :: ' ' :: dumpScalar y) (x :: rest)) =
          List.map (fun d => '-' :: ' ' :: d) ((x :: rest).map dumpScalar) by
          rw [List.map_map]; rfl]
        exact addBannersAux_items _ _ _
  rw [hitems]
  rw [stripComments, List.filterMap_append]
  rw [show List.filterMap stripCommentLine
      (keyLineOut k (k ++ ':' :: vtailOf v) :: (itemsOf v ++
        addBannersAux (secAfter sec k) (fieldsDump t ++ [[]]))) =
    (k ++ ':' :: vtailOf v) :: List.filterMap stripCommentLine (itemsOf v ++
        addBannersAux (secAfter sec k) (fieldsDump t ++ [[]])) by
    rw [List.filterMap_cons, strip_keyline hk hv]]
  rw [List.filterMap_append]
  have := stripComments_items v hv
  rw [stripComments] at this
  rw [this]
  rfl

theorem noItemAhead_cleaned (t : Metadata) (sec : Line)
    (hwf : ∀ p ∈ t, plainKeyOk p.1 = true ∧ wfValue p.2 = true) :
    noItemAhead (stripComments (addBannersAux sec (fieldsDump t ++ [[]]))) = true := by
  cases t with
  | nil =>
    rw [cleaned_nil]
    rfl
  | cons p t' =>
    obtain ⟨k, v⟩ := p
    have hk : plainKeyOk k = true := (hwf (k, v) (by simp)).1
    have hv : wfValue v = true := (hwf (k, v) (by simp)).2
    rw [cleaned_cons k v t' sec hk hv]
    obtain ⟨⟨c, r, hcons, hcmem⟩, _⟩ := plainKeyOk_parts hk
    have hfacts := alphaChars_facts c hcmem
    have hblank : isBlankL (k ++ ':' :: vtailOf v) = false := by
      apply isBlankL_false_of_mem (c := c)
      · rw [hcons]; simp
      · exact hfacts.2.2.2.2.2.2.2.2.1
    have hpre : (L "- ").isPrefixOf (k ++ ':' :: vtailOf v) = false := by
      rw [hcons, show (c :: r) ++ ':' :: vtailOf v = c :: (r ++ ':' :: vtailOf v) from rfl,
        show L "- " = '-' :: [' '] from rfl]
      exact isPrefixOf_cons_ne (Ne.symm hfacts.2.2.1) _ _
    rcases stripComments_bannerOut sec k with hb | hb
    · rw [hb]
      simp only [List.nil_append, noItemAhead]
      rw [if_neg (by simp [hblank]), hpre]
      rfl
    · rw [hb]
      rw [show ([[]] : List Line) ++ (k ++ ':' :: vtailOf v) :: (itemsOf v ++
          stripComments (addBannersAux (secAfter sec k) (fieldsDump t' ++ [[]]))) =
        [] :: (k ++ ':' :: vtailOf v) :: (itemsOf v ++
          stripComments (addBannersAux (secAfter sec k) (fieldsDump t' ++ [[]]))) from rfl]
      rw [noItemAhead, if_pos (by decide), noItemAhead, if_neg (by simp [hblank]), hpre]
      rfl

theorem parse_fields :
    ∀ (m : Metadata) (sec : Line) (acc : Metadata) (fuel : Nat),
      (∀ p ∈ m, plainKeyOk p.1 = true ∧ wfValue p.2 = true) →
      (m.map Prod.fst).Nodup →
      (∀ p ∈ m, hasKey p.1 acc = false) →
      (stripComments (addBannersAux sec (fieldsDump m ++ [[]]))).length ≤ fuel →
      parseYamlAux acc fuel (stripComments (addBannersAux sec (fieldsDump m ++ [[]]))) =
        some (acc ++ m) := by
  intro m
  induction m with
  | nil =>
    intro sec acc fuel _ _ _ hfuel
    rw [cleaned_nil] at hfuel ⊢
    obtain ⟨f, rfl⟩ : ∃ f, fuel = f + 1 := by
      cases fuel with
      | zero => simp at hfuel
      | succ f => exact ⟨f, rfl⟩
    rw [parseYamlAux_blank]
    cases f <;> simp [parseYamlAux]
  | cons p t ih =>
    obtain ⟨k, v⟩ := p
    intro sec acc fuel hwf hnodup hfresh hfuel
    have hk : plainKeyOk k = true := (hwf (k, v) (by simp)).1
    have hv : wfValue v = true := (hwf (k, v) (by simp)).2
    rw [cleaned_cons k v t sec hk hv] at hfuel ⊢
    set C2 := stripComments (addBannersAux (secAfter sec k) (fieldsDump t ++ [[]])) with hC2
    obtain ⟨c, r, hcons, hcmem⟩ := (plainKeyOk_parts hk).1
    have hfacts := alphaChars_facts c hcmem
    have hblank : isBlankL (k ++ ':' :: vtailOf v) = false := by
      apply isBlankL_false_of_mem (c := c)
      · rw [hcons]; simp
      · exact hfacts.2.2.2.2.2.2.2.2.1
    have hnotbrace : (k ++ ':' :: vtailOf v) ≠ ['\x7b', '\x7d'] := by
      rw [hcons, show (c :: r) ++ ':' :: vtailOf v = c :: (r ++ ':' :: vtailOf v) from rfl]
      exact cons_ne_of_head_ne (by
        rw [show ('\x7b' : Char) = Char.ofNat 123 by decide]
        exact hfacts.2.2.2.2.2.1) _ _
    have hsplit := splitAtFirst_keyline (plainKeyOk_noColon hk) (vtailOf v)
    have hkfresh : hasKey k acc = false := hfresh (k, v) (by simp)
    have hknotint : k ∉ t.map Prod.fst := by
      simp only [List.map_cons, List.nodup_cons] at hnodup
      exact hnodup.1
    have hwft : ∀ p ∈ t, plainKeyOk p.1 = true ∧ wfValue p.2 = true :=
      fun p hp => hwf p (by simp [hp])
    have hnodupt : (t.map Prod.fst).Nodup := by
      simp only [List.map_cons, List.nodup_cons] at hnodup
      exact hnodup.2
    have hfresht : ∀ p ∈ t, hasKey p.1 (acc ++ [(k, v)]) = false := by
      intro p hp
      apply hasKey_append_fresh (hfresh p (by simp [hp]))
      intro hpk
      exact hknotint (hpk ▸ List.mem_map_of_mem Prod.fst hp)
    have happend : (acc ++ [(k, v)]) ++ t = acc ++ (k, v) :: t := by
      simp
    have hcore : ∀ f2 : Nat,
        ((k ++ ':' :: vtailOf v) :: (itemsOf v ++ C2)).length ≤ f2 + 1 →
        parseYamlAux acc (f2 + 1) ((k ++ ':' :: vtailOf v) :: (itemsOf v ++ C2)) =
          some (acc ++ (k, v) :: t) := by
      intro f2 hlen
      rw [parseYamlAux]
      rw [if_neg (by simp [hblank]), if_neg hnotbrace, hsplit]
      cases v with
      | scalar s =>
        have hs : wfScalar s = true := hv
        have hdne : dumpScalar s ≠ [] := dumpScalar_ne_nil hs
        have hdws : ∀ c' ∈ dumpScalar s, c'.isWhitespace = false :=
          fun c' hc' => (dumpScalar_chars hs c' hc').2.2.2
        simp only [vtailOf, itemsOf, List.nil_append] at hlen ⊢
        rw [noWs_pyTrim_space hdne hdws]
        rw [if_neg hdne]
        rw [show parseValueTok (dumpScalar s) = .scalar s from parseValueTok_dumpScalar hs]
        rw [assocSetVal_fresh hkfresh]
        rw [show (some (acc ++ (k, YValue.scalar s) :: t) : Option Metadata) =
          some ((acc ++ [(k, YValue.scalar s)]) ++ t) by rw [happend]]
        rw [hC2]
        apply ih (secAfter sec k) (acc ++ [(k, YValue.scalar s)]) f2 hwft hnodupt hfresht
        rw [← hC2]
        simp only [List.length_cons] at hlen
        omega
      | list xs =>
        cases xs with
        | nil =>
          simp only [vtailOf, itemsOf, List.nil_append] at hlen ⊢
          rw [show pyTrim (' ' :: '[' :: ']' :: []) = L "[]" by decide]
          rw [if_neg (by decide)]
          rw [show parseValueTok (L "[]") = .list [] by decide]
          rw [assocSetVal_fresh hkfresh]
          rw [show (some (acc ++ (k, YValue.list []) :: t) : Option Metadata) =
            some ((acc ++ [(k, YValue.list [])]) ++ t) by rw [happend]]
          rw [hC2]
          apply ih (secAfter sec k) (acc ++ [(k, YValue.list [])]) f2 hwft hnodupt hfresht
          rw [← hC2]
          simp only [List.length_cons] at hlen
          omega
        | cons x rest =>
          have hxswf : ∀ y ∈ x :: rest, wfScalar y = true := by
            rw [wfValue] at hv
            exact fun y hy => (List.all_eq_true.mp hv) y hy
          simp only [vtailOf, itemsOf] at hlen ⊢
          rw [show pyTrim ([] : Line) = [] from rfl]
          rw [if_pos rfl]
          have hitems : List.map (fun y => '-' :: ' ' :: dumpScalar y) (x :: rest) ++ C2 =
              (x :: rest).map (fun y => '-' :: ' ' :: dumpScalar y) ++ C2 := rfl
          have htk := takeListItems_items hxswf
            (R := C2) (by rw [hC2]; exact noItemAhead_cleaned t (secAfter sec k) hwft)
          rw [htk]
          rw [if_neg (by simp)]
          rw [assocSetVal_fresh hkfresh]
          rw [show (some (acc ++ (k, YValue.list (x :: rest)) :: t) : Option Metadata) =
            some ((acc ++ [(k, YValue.list (x :: rest))]) ++ t) by rw [happend]]
          rw [hC2]
          apply ih (secAfter sec k) (acc ++ [(k, YValue.list (x :: rest))]) f2 hwft hnodupt hfresht
          rw [← hC2]
          simp only [List.length_cons, List.length_append, List.length_map] at hlen
          omega
    rcases stripComments_bannerOut sec k with hb | hb
    · rw [hb] at hfuel ⊢
      simp only [List.nil_append] at hfuel ⊢
      obtain ⟨f2, rfl⟩ : ∃ f2, fuel = f2 + 1 := by
        cases fuel with
        | zero => simp at hfuel
        | succ f => exact ⟨f, rfl⟩
      exact hcore f2 hfuel
    · rw [hb] at hfuel ⊢
      rw [show ([[]] : List Line) ++ (k ++ ':' :: vtailOf v) :: (itemsOf v ++ C2) =
        [] :: (k ++ ':' :: vtailOf v) :: (itemsOf v ++ C2) from rfl] at hfuel ⊢
      obtain ⟨f3, rfl⟩ : ∃ f3, fuel = f3 + 1 := by
        cases fuel with
        | zero => simp at hfuel
        | succ f => exact ⟨f, rfl⟩
      rw [parseYamlAux_blank]
      obtain ⟨f2, rfl⟩ : ∃ f2, f3 = f2 + 1 := by
        cases f3 with
        | zero => simp at hfuel
        | succ f => exact ⟨f, rfl⟩
      apply hcore f2
      simp only [List.length_cons] at hfuel ⊢
      omega

theorem findDelimIdx_concat :
    ∀ (pre : List Line), (∀ l ∈ pre, l ≠ L "---") →
    findDelimIdx (pre ++ [L "---", []]) = some pre.length := by
  intro pre
  induction pre with
  | nil => intro _; rfl
  | cons p rest ih =>
    intro h
    have hp : p ≠ L "---" := h p (by simp)
    have hne : rest ++ [L "---", []] ≠ [] := by simp
    rw [show (p :: rest) ++ [L "---", []] = p :: (rest ++ [L "---", []]) from rfl]
    rw [findDelimIdx.eq_def]
    split
    · rename_i heq
      simp at heq
    · rename_i heq
      have := congrArg List.length heq
      simp at this
    · rename_i l ls heq
      injection heq with hl hls
      rw [← hl, if_neg hp, ← hls, ih (fun x hx => h x (by simp [hx]))]
      rfl

/-- The banner-inserting pass of the field lines for one leading field
(the pre-`stripComments` half of `cleaned_cons`). -/
theorem addBanners_cons (k : Line) (v : YValue) (t : Metadata) (sec : Line)
    (hk : plainKeyOk k = true) :
    addBannersAux sec (fieldsDump ((k, v) :: t) ++ [[]]) =
      bannerOut sec k ++ keyLineOut k (k ++ ':' :: vtailOf v) ::
        (itemsOf v ++ addBannersAux (secAfter sec k) (fieldsDump t ++ [[]])) := by
  have hstream : fieldsDump ((k, v) :: t) ++ [[]] =
      (k ++ ':' :: vtailOf v) :: (itemsOf v ++ (fieldsDump t ++ [[]])) := by
    rw [show fieldsDump ((k, v) :: t) = dumpFieldLines k v ++ fieldsDump t by
      simp [fieldsDump]]
    rw [dumpFieldLines_shape]
    simp
  rw [hstream, addBannersAux_keyline sec (plainKeyOk_noColon hk)]
  congr 1
  cases v with
  | scalar s => rfl
  | list xs =>
    cases xs with
    | nil => rfl
    | cons x rest =>
      rw [itemsOf]
      rw [show (List.map (fun y => '-' :: ' ' :: dumpScalar y) (x :: rest)) =
        List.map (fun d => '-' :: ' ' :: d) ((x :: rest).map dumpScalar) by
        rw [List.map_map]; rfl]
      rw [addBannersAux_items]

theorem bannerOut_mem_ne_delim (sec k : Line) :
    ∀ l ∈ bannerOut sec k, l ≠ L "---" := by
  intro l hl
  rw [bannerOut] at hl
  have hsection : ∀ name, l ∈ sectionHeaderFor name → l ≠ L "---" := by
    intro name hmem
    rw [sectionHeaderFor] at hmem
    rcases List.mem_cons.mp hmem with rfl | hmem2
    · simp [L]
    · rcases List.mem_cons.mp hmem2 with rfl | hmem3
      · rw [show L "# === " ++ name ++ L " ===" = '#' :: (L " === " ++ name ++ L " ===") by
          simp [L]]
        rw [show L "---" = '-' :: L "--" from rfl]
        exact cons_ne_of_head_ne (by decide) _ _
      · simp at hmem3
  revert hl
  split_ifs <;> intro hl <;> first | simp at hl | exact hsection _ hl

theorem addBanners_ne_delim :
    ∀ (m : Metadata) (sec : Line), (∀ p ∈ m, plainKeyOk p.1 = true) →
    ∀ l ∈ addBannersAux sec (fieldsDump m ++ [[]]), l ≠ L "---" := by
  intro m
  induction m with
  | nil =>
    intro sec _ l hl
    rw [show fieldsDump [] ++ [[]] = [[]] from rfl, addBannersAux_blank] at hl
    rcases List.mem_cons.mp hl with rfl | hl2
    · simp [L]
    · simp [addBannersAux] at hl2
  | cons p t ih =>
    obtain ⟨k, v⟩ := p
    intro sec hwf l hl
    have hk : plainKeyOk k = true := hwf (k, v) (by simp)
    rw [addBanners_cons k v t sec hk] at hl
    rcases List.mem_append.mp hl with hb | hrest
    · exact bannerOut_mem_ne_delim sec k l hb
    · rcases List.mem_cons.mp hrest with rfl | hrest2
      · obtain ⟨c, r, hcons, hcmem⟩ := (plainKeyOk_parts hk).1
        rw [keyLineOut]
        have hhead : ∀ tail : Line, (k ++ tail) ≠ L "---" := by
          intro tail
          rw [hcons, show (c :: r) ++ tail = c :: (r ++ tail) from rfl,
            show L "---" = '-' :: L "--" from rfl]
          exact cons_ne_of_head_ne (alphaChars_facts c hcmem).2.2.1 _ _
        split_ifs
        · rw [show (k ++ ':' :: vtailOf v) ++ idCommentSuffix =
            k ++ (':' :: vtailOf v ++ idCommentSuffix) by simp]
          exact hhead _
        · exact hhead _
      · rcases List.mem_append.mp hrest2 with hitem | hdeeper
        · have : ∃ d, l = '-' :: ' ' :: d := by
            cases v with
            | scalar s => simp [itemsOf] at hitem
            | list xs =>
              cases xs with
              | nil => simp [itemsOf] at hitem
              | cons x rest =>
                rw [itemsOf] at hitem
                rcases List.mem_map.mp hitem with ⟨y, _, hy⟩
                exact ⟨dumpScalar y, hy.symm⟩
          obtain ⟨d, rfl⟩ := this
          rw [show L "---" = '-' :: '-' :: ['-'] from rfl]
          intro heq
          have h2 := List.tail_eq_of_cons_eq heq
          have h3 := List.head_eq_of_cons_eq h2
          exact absurd h3 (by decide)
        · exact ih (secAfter sec k) (fun q hq => hwf q (by simp [hq])) l hdeeper

/-- C5: the amended round trip.  For a nonempty mapping of plain keys and
plain-safe scalar or scalar-sequence values with no duplicate keys,
`parse_yaml_frontmatter` recovers exactly the mapping and the body that
`update_spec_content`'s rebuild serialized. -/
theorem claim_C5_amended (m : Metadata) (h : wfMetadata m) :
    parseYamlFrontmatter (encodeFrontmatter m [[]]) = (m, [[]]) := by
  obtain ⟨hne, hwf, hnd⟩ := h
  have hdump : yamlDump m = fieldsDump m := yamlDump_ne_nil hne
  set A := addBannersAux (L "identification") (fieldsDump m ++ [[]]) with hA
  set P := bannerLine :: metaBannerLine :: bannerLine :: [] ::
    (L "# === IDENTIFICATION ===") :: A with hP
  have henc : encodeFrontmatter m [[]] = L "---" :: (P ++ [L "---", []]) := by
    rw [encodeFrontmatter, hdump, ← hA, hP]
    simp
  have hnd2 : ∀ l ∈ P, l ≠ L "---" := by
    intro l hl
    rw [hP] at hl
    rcases List.mem_cons.mp hl with rfl | hl
    · decide
    rcases List.mem_cons.mp hl with rfl | hl
    · decide
    rcases List.mem_cons.mp hl with rfl | hl
    · decide
    rcases List.mem_cons.mp hl with rfl | hl
    · decide
    rcases List.mem_cons.mp hl with rfl | hl
    · decide
    exact addBanners_ne_delim m (L "identification")
      (fun p hp => (hwf p hp).1) l (hA ▸ hl)
  have hfind : findDelimIdx (P ++ [L "---", []]) = some P.length :=
    findDelimIdx_concat P hnd2
  rw [henc, parseYamlFrontmatter]
  rw [if_pos (by decide : ((L "---").isPrefixOf (L "---")) = true)]
  rw [hfind]
  have htake : (P ++ [L "---", []]).take P.length = P := List.take_left _ _
  have hdrop : (P ++ [L "---", []]).drop (P.length + 1) = [[]] := by
    rw [List.drop_append 1]
    rfl
  dsimp only
  rw [htake, hdrop]
  have hyaml : ((L "---").drop 3 : Line) = [] := by decide
  rw [hyaml]
  set SA := stripComments A with hSA
  have hclean : stripComments ([] :: P) = [] :: [] :: SA := by
    rw [hP, hSA]
    rw [show ([] :: bannerLine :: metaBannerLine :: bannerLine :: [] ::
        (L "# === IDENTIFICATION ===") :: A) =
      ([[], bannerLine, metaBannerLine, bannerLine, [],
        L "# === IDENTIFICATION ==="] : List Line) ++ A from rfl]
    rw [stripComments, List.filterMap_append]
    rw [show List.filterMap stripCommentLine
        ([[], bannerLine, metaBannerLine, bannerLine, [],
          L "# === IDENTIFICATION ==="] : List Line) = [[], []] by decide]
    rfl
  rw [hclean]
  have hfields : parseYaml ([] :: [] :: SA) = some m := by
    rw [parseYaml]
    rw [show ([] :: [] :: SA).length = SA.length + 1 + 1 by simp]
    rw [parseYamlAux_blank, parseYamlAux_blank]
    rw [hSA, hA]
    rw [parse_fields m (L "identification") [] _ hwf hnd
      (fun p _ => rfl) (le_refl _)]
    simp
  rw [hfields]

theorem claim_C5_amended_witness :
    wfMetadata mWitnessC5 ∧
    parseYamlFrontmatter (encodeFrontmatter mWitnessC5 [[]]) = (mWitnessC5, [[]]) :=
  ⟨by decide, claim_C5_amended mWitnessC5 (by decide)⟩
